import Mathlib

/-!
Verification model of the `glimmondb` package (files
`glimmondb/glimmondb.py` and `glimmondb/update.py`, which duplicate the
same merge logic verbatim).

The development shallowly embeds the parts of the program the claims are
about:

* the SQLite tables `limits` / `expected_states` / `versions` are modelled
  as Lean lists of rows in insertion (rowid) order; `SELECT ... WHERE
  a.modversion = (SELECT MAX(...))` queries become list filters, and
  `ORDER BY` becomes a stable sort by the corresponding lexicographic key;
* Python `str` values are modelled as `List Char`; Python numbers that the
  program only ever stores and compares for equality are modelled as `Int`
  (for the INTEGER/REAL key and flag columns) and `Rat` (for parsed
  threshold literals);
* `sorted(set(xs).difference(set(ys)), key=...)` becomes a stable
  insertion sort of a deduplicated filtered list; the nondeterministic
  iteration order of a Python `set` is modelled by an explicit enumeration
  parameter (a permutation of the canonical difference list) where a claim
  is about iteration-order independence;
* the `UNIQUE` column constraints of the `versions` table make an
  `INSERT` fail with `sqlite3.IntegrityError`; fallible operations return
  `Option`/`Except`.

`sha256` hashing of a serialized table is outside the model: the model
keeps the exact serialized, ordered row data that the program hashes, so
equality of that data is what "identical hashes" means here.
-/

/-- Python `str`, modelled as a list of characters. -/
abbrev Str : Type := List Char

/-- Character comparison used for ordering, via code points. -/
def chLt (a b : Char) : Bool := a.toNat < b.toNat

/-- Lexicographic strict order on strings (SQLite TEXT ordering /
Python `str` comparison, restricted to the code points used here). -/
def strLtB : Str → Str → Bool
  | [], [] => false
  | [], _ :: _ => true
  | _ :: _, [] => false
  | a :: s, b :: t => if chLt a b then true else if chLt b a then false else strLtB s t

/-- Integer strict order as a Bool. -/
def intLtB (a b : Int) : Bool := a < b

/-- Insert `x` before the first element it compares `le` to: one step of a
stable insertion sort. -/
def insertB {α : Type} (le : α → α → Bool) (x : α) : List α → List α
  | [] => [x]
  | y :: t => if le x y then x :: y :: t else y :: insertB le x t

/-- Python's stable `sorted(...)` (and SQLite's deterministic `ORDER BY`),
modelled as stable insertion sort by the given comparison. -/
def pySorted {α : Type} (le : α → α → Bool) : List α → List α
  | [] => []
  | x :: t => insertB le x (pySorted le t)

/-- An `(msid, setkey)` key of the `limits` / `expected_states` tables. -/
abbrev MsKey : Type := Str × Int

/-- The `key=lambda row: (row[0], row[1])` comparison used by `sorted` in the
merge passes: lexicographic on msid, then setkey. -/
def keyLE (a b : MsKey) : Bool :=
  strLtB a.1 b.1 || (decide (a.1 = b.1) && decide (a.2 ≤ b.2))

/-- A stored scalar value: a number or a text value (the `'none'`
sentinels and switch-state labels are text). -/
inductive Val : Type where
  | num (q : Rat)
  | txt (s : Str)
deriving DecidableEq

/-- One row of the `limits` or `expected_states` table, in the column
order of the `CREATE TABLE` statements of `NewLimitDB`.  The type-specific
tail (`caution_high, caution_low, warning_high, warning_low, switchstate`
for limits; `expst, switchstate` for expected states) is the `rest` list,
so the same merge functions serve both tables, exactly as the Python
functions are generic in `tabletype`. -/
structure Row where
  msid : Str
  setkey : Int
  datesec : Int
  date : Str
  modversion : Int
  mlmenable : Int
  mlmtol : Int
  default_set : Int
  mlimsw : Str
  rest : List Val
deriving DecidableEq

/-- The `(msid, setkey)` key of a row. -/
def msKey (r : Row) : MsKey := (r.msid, r.setkey)

/-- The `(datesec, msid, setkey)` ordering used by every `ORDER BY` on the
row tables. -/
def dmsLE (a b : Row) : Bool :=
  intLtB a.datesec b.datesec ||
    (decide (a.datesec = b.datesec) &&
      (strLtB a.msid b.msid ||
        (decide (a.msid = b.msid) && decide (a.setkey ≤ b.setkey))))

/-- `ORDER BY datesec, msid, setkey`. -/
def orderDMS (tbl : List Row) : List Row := pySorted dmsLE tbl

/-- `a.modversion = (SELECT MAX(b.modversion) ... WHERE a.msid = b.msid and
a.setkey = b.setkey)`: the row's modversion is maximal among the rows with
its key. -/
def isLatest (tbl : List Row) (r : Row) : Bool :=
  tbl.all fun b => if msKey b = msKey r then decide (b.modversion ≤ r.modversion) else true

/-- The rows selected by the correlated `MAX(modversion)` subqueries: each
table row whose modversion is maximal for its key, in table order. -/
def latestRows (tbl : List Row) : List Row := tbl.filter (fun r => isLatest tbl r)

/-- `query_most_recent_msids_sets`: `SELECT a.msid, a.setkey ... WHERE`
latest `ORDER BY a.datesec, a.msid, a.setkey`. -/
def query_most_recent_msids_sets (tbl : List Row) : List MsKey :=
  (orderDMS (latestRows tbl)).map msKey

/-- `query_most_recent_disabled_msids_sets`: same, restricted to
`a.mlmenable = 0`. -/
def query_most_recent_disabled_msids_sets (tbl : List Row) : List MsKey :=
  (orderDMS ((latestRows tbl).filter (fun r => r.mlmenable = 0))).map msKey

/-- `query_all_cols_one_row_to_copy`: all columns of the latest row for one
`(msid, setkey)` pair; `fetchone()` takes the first result. -/
def query_all_cols_one_row_to_copy (tbl : List Row) (k : MsKey) : Option Row :=
  ((latestRows tbl).filter (fun r => msKey r = k)).head?

/-- The tuple of columns returned by `query_most_recent_changeable_data`:
everything except `datesec`, `date`, `modversion`. -/
structure ChRow where
  msid : Str
  setkey : Int
  mlmenable : Int
  mlmtol : Int
  default_set : Int
  mlimsw : Str
  rest : List Val
deriving DecidableEq

/-- Projection of a row to its changeable columns. -/
def chTuple (r : Row) : ChRow :=
  ⟨r.msid, r.setkey, r.mlmenable, r.mlmtol, r.default_set, r.mlimsw, r.rest⟩

/-- `query_most_recent_changeable_data`: changeable columns of the latest
rows, `ORDER BY datesec, msid, setkey`. -/
def query_most_recent_changeable_data (tbl : List Row) : List ChRow :=
  (orderDMS (latestRows tbl)).map chTuple

/-- The key of a changeable-columns tuple (`row[0], row[1]`). -/
def chKey (t : ChRow) : MsKey := (t.msid, t.setkey)

/-- The `sorted(..., key=lambda row: (row[0], row[1]))` comparison on
changeable tuples. -/
def chLE (a b : ChRow) : Bool := keyLE (chKey a) (chKey b)

/-- `set(xs).difference(set(ys))` as the canonical list of its elements:
the members of `xs` not in `ys`, first occurrences, in `xs` order.  A
Python `set` iterates in an arbitrary order; passes that depend on the
order use an explicit enumeration parameter constrained to be a
permutation of this list. -/
def canonSetDiff {α : Type} [DecidableEq α] (xs ys : List α) : List α :=
  (xs.filter (fun x => decide (x ∉ ys))).dedup

/-- `sorted(·, key=lambda row: (row[0], row[1]))` on msid/set pairs. -/
def sortK (l : List MsKey) : List MsKey := pySorted keyLE l

/-- `sorted(·, key=lambda row: (row[0], row[1]))` on changeable tuples. -/
def sortT (l : List ChRow) : List ChRow := pySorted chLE l

/-- A choice of iteration order for every `set(...).difference(set(...))`
the merge passes build: `dk` enumerates key differences, `dt` tuple
differences. -/
structure DiffChoice where
  dk : List MsKey → List MsKey → List MsKey
  dt : List ChRow → List ChRow → List ChRow

/-- A choice is valid when it enumerates exactly the set difference. -/
def ValidChoice (c : DiffChoice) : Prop :=
  (∀ xs ys, List.Perm (c.dk xs ys) (canonSetDiff xs ys)) ∧
    (∀ xs ys, List.Perm (c.dt xs ys) (canonSetDiff xs ys))

/-- The canonical enumeration choice. -/
def canonChoice : DiffChoice := ⟨fun xs ys => canonSetDiff xs ys, fun xs ys => canonSetDiff xs ys⟩

/-- `merge_added_msidsets`, rows to be committed: keys of the new table
absent from the old one, sorted, each copied in full from the new table. -/
def addedRowsW (c : DiffChoice) (newT oldT : List Row) : List Row :=
  let not_in_oldrows :=
    sortK (c.dk (query_most_recent_msids_sets newT) (query_most_recent_msids_sets oldT))
  not_in_oldrows.filterMap (fun k => query_all_cols_one_row_to_copy newT k)

/-- `merge_added_msidsets` with the canonical set order. -/
def addedRows (newT oldT : List Row) : List Row := addedRowsW canonChoice newT oldT

/-- The overwrite performed on a deactivated row copy: `deactrow[2] =
datesec; deactrow[3] = date; deactrow[4] = version; deactrow[5] = 0`. -/
def deactStamp (v ds : Int) (dt : Str) (r : Row) : Row :=
  { r with datesec := ds, date := dt, modversion := v, mlmenable := 0 }

/-- `merge_deleted_msidsets`, rows to be committed: extend the new keys
with the old most-recently-disabled keys missing from the new table, then
deactivate a copy of the latest old row for every old key still missing. -/
def deletedRowsW (c : DiffChoice) (newT oldT : List Row) (v ds : Int) (dt : Str) : List Row :=
  let all_new_rows := query_most_recent_msids_sets newT
  let all_old_rows := query_most_recent_msids_sets oldT
  let disabled_not_in_newrows :=
    sortK (c.dk (query_most_recent_disabled_msids_sets oldT) all_new_rows)
  let extended_new := all_new_rows ++ disabled_not_in_newrows
  let not_in_newrows := sortK (c.dk all_old_rows extended_new)
  not_in_newrows.filterMap
    (fun k => (query_all_cols_one_row_to_copy oldT k).map (deactStamp v ds dt))

/-- `merge_deleted_msidsets` with the canonical set order. -/
def deletedRows (newT oldT : List Row) (v ds : Int) (dt : Str) : List Row :=
  deletedRowsW canonChoice newT oldT v ds dt

/-- `merge_modified_msidsets`, rows to be committed: changeable tuples of
the new table absent from the old one, sorted by key, each replaced by the
full new row for its key. -/
def modifiedRowsW (c : DiffChoice) (newT oldT : List Row) : List Row :=
  let modified_rows :=
    sortT (c.dt (query_most_recent_changeable_data newT) (query_most_recent_changeable_data oldT))
  modified_rows.filterMap (fun t => query_all_cols_one_row_to_copy newT (chKey t))

/-- `merge_modified_msidsets` with the canonical set order. -/
def modifiedRows (newT oldT : List Row) : List Row := modifiedRowsW canonChoice newT oldT

/-- One table's share of `merge_new_glimmon_to_db`: the added, deactivated
and modified row batches, in execution order, each pass committed into the
store before the next one runs. -/
def mergeTableStepW (c : DiffChoice) (newT oldT : List Row) (v ds : Int) (dt : Str) :
    List Row × List Row × List Row :=
  let a := addedRowsW c newT oldT
  let o1 := oldT ++ a
  let d := deletedRowsW c newT o1 v ds dt
  let o2 := o1 ++ d
  let m := modifiedRowsW c newT o2
  (a, d, m)

/-- One table's share of `merge_new_glimmon_to_db` with canonical order. -/
def mergeTableStep (newT oldT : List Row) (v ds : Int) (dt : Str) :
    List Row × List Row × List Row :=
  mergeTableStepW canonChoice newT oldT v ds dt

/-- The table after the three passes: `commit_new_rows` only ever
`INSERT`s, so the result is the old rows followed by the three batches. -/
def mergeTableResultW (c : DiffChoice) (newT oldT : List Row) (v ds : Int) (dt : Str) :
    List Row :=
  let (a, d, m) := mergeTableStepW c newT oldT v ds dt
  oldT ++ a ++ d ++ m

/-- One row of the `versions` table: `version INTEGER UNIQUE, datesec REAL
UNIQUE, date TEXT UNIQUE`. -/
structure VersionRow where
  version : Int
  datesec : Int
  date : Str
deriving DecidableEq

/-- The `(datesec, version)` ordering of the versions fingerprint query. -/
def dvLE (a b : VersionRow) : Bool :=
  intLtB a.datesec b.datesec || (decide (a.datesec = b.datesec) && decide (a.version ≤ b.version))

/-- `ORDER BY datesec, version`. -/
def orderDV (vs : List VersionRow) : List VersionRow := pySorted dvLE vs

/-- `SELECT MAX(version) FROM versions` (NULL on an empty table). -/
def maxVersion : List VersionRow → Option Int
  | [] => none
  | v :: vs => some (vs.foldl (fun m w => max m w.version) v.version)

/-- One `build_fingerprints` ledger row.  The program stores
`sha256(str(rows))` of each ordered row list; the model keeps the ordered
row data itself, which is exactly the hash input, so two ledger rows carry
equal hashes iff they carry equal data fields.  The db-file hash/size and
source-identification columns concern raw file bytes and paths outside the
model. -/
structure Fingerprint where
  version : Option Int
  limitData : List Row
  stateData : List Row
  versionData : List VersionRow
  limitCount : Nat
  stateCount : Nat
  versionCount : Nat
deriving DecidableEq

/-- The persistent store: `limits`, `expected_states`, `versions`,
`build_fingerprints`, each in insertion order. -/
structure StoreDB where
  limits : List Row
  states : List Row
  versions : List VersionRow
  fingerprints : List Fingerprint
deriving DecidableEq

/-- The database built by `NewLimitDB` from one revision: the projected
row sets plus a single `versions` row. -/
structure RevDB where
  limits : List Row
  states : List Row
  version : Int
  datesec : Int
  date : Str
deriving DecidableEq

/-- `INSERT INTO versions(version, datesec, date) VALUES(?,?,?)` against
the three `UNIQUE` column constraints: `sqlite3.IntegrityError` (here
`none`) when any of the three values is already present. -/
def insertVersion (vs : List VersionRow) (v : VersionRow) : Option (List VersionRow) :=
  if vs.any (fun w =>
      decide (w.version = v.version) || decide (w.datesec = v.datesec) ||
        decide (w.date = v.date)) then
    none
  else
    some (vs ++ [v])

/-- `compute_fingerprints`: hash input data for each table in its
deterministic order, counts, and the current max version; `INSERT OR
REPLACE` keyed by the `version UNIQUE` column. -/
def compute_fingerprints (s : StoreDB) : StoreDB :=
  let fp : Fingerprint :=
    { version := maxVersion s.versions
      limitData := orderDMS s.limits
      stateData := orderDMS s.states
      versionData := orderDV s.versions
      limitCount := s.limits.length
      stateCount := s.states.length
      versionCount := s.versions.length }
  { s with fingerprints :=
      (s.fingerprints.filter (fun g => decide (g.version ≠ fp.version))) ++ [fp] }

/-- The failure `merge_new_glimmon_to_db` can propagate from
`commit_new_version_row`. -/
inductive MergeErr : Type where
  | versionUniqueViolation
deriving DecidableEq

/-- `merge_new_glimmon_to_db`, from the point where the new revision's
database exists: three passes on `limits`, three passes on
`expected_states`, `commit_new_version_row`, `compute_fingerprints`.  The
version insert runs after the table passes are committed; on a `UNIQUE`
violation the function raises and neither the version row nor the
fingerprint row is written. -/
def mergeStepW (c : DiffChoice) (new : RevDB) (old : StoreDB) : Except MergeErr StoreDB :=
  let L := mergeTableResultW c new.limits old.limits new.version new.datesec new.date
  let S := mergeTableResultW c new.states old.states new.version new.datesec new.date
  match insertVersion old.versions ⟨new.version, new.datesec, new.date⟩ with
  | none => .error .versionUniqueViolation
  | some vs =>
      .ok (compute_fingerprints { limits := L, states := S, versions := vs,
                                  fingerprints := old.fingerprints })

/-- `merge_new_glimmon_to_db` with the canonical set order. -/
def mergeStep (new : RevDB) (old : StoreDB) : Except MergeErr StoreDB :=
  mergeStepW canonChoice new old

/-- The loop of `recreate_db`: merge the ordered revision list into the
store, stopping at the first failure. -/
def rebuildW (c : DiffChoice) (inputs : List RevDB) (s0 : StoreDB) : Except MergeErr StoreDB :=
  inputs.foldlM (fun s r => mergeStepW c r s) s0

/-- `recreate_db`'s merge loop with the canonical set order. -/
def rebuild (inputs : List RevDB) (s0 : StoreDB) : Except MergeErr StoreDB :=
  rebuildW canonChoice inputs s0

/-- The per-table fingerprint inputs of a store: the data whose sha256
hashes `compute_fingerprints` records. -/
def fingerprintData (s : StoreDB) : List Row × List Row × List VersionRow :=
  (orderDMS s.limits, orderDMS s.states, orderDV s.versions)

/-- The rows of a table carrying a given key, in table order. -/
def rowsFor (k : MsKey) (tbl : List Row) : List Row :=
  tbl.filter (fun r => decide (msKey r = k))

/-- The extended key list built by the Deactivated pass. -/
def extendedNewKeys (newT oldT : List Row) : List MsKey :=
  query_most_recent_msids_sets newT ++
    sortK (canonSetDiff (query_most_recent_disabled_msids_sets oldT)
      (query_most_recent_msids_sets newT))

deriving instance DecidableEq for Except

/-- `get_tdb`: select the reference snapshot (telemetry database) for a
revision number through the fixed `if/elif` chain of inclusive upper
bounds.  The chain has no final `else`: for `revision > 999` no branch
assigns `tdb` and the trailing `return tdb` raises `UnboundLocalError`,
modelled as `none`. -/
def get_tdb (revision : Int) : Option Str :=
  if revision ≤ 130 then some ['p', '0', '0', '7']
  else if revision ≤ 228 then some ['p', '0', '0', '9']
  else if revision ≤ 245 then some ['p', '0', '1', '0']
  else if revision ≤ 249 then some ['p', '0', '1', '1']
  else if revision ≤ 256 then some ['p', '0', '1', '2']
  else if revision ≤ 260 then some ['p', '0', '1', '3']
  else if revision ≤ 342 then some ['p', '0', '1', '4']
  else if revision ≤ 359 then some ['p', '0', '1', '5']
  else if revision ≤ 407 then some ['p', '0', '1', '6']
  else if revision ≤ 999 then some ['p', '0', '1', '7']
  else none

/-! ### Format parser (`read_glimmon`) -/

/-- Python's notion of whitespace for `str.split()` / `str.strip()` /
`\s` (ASCII range, as used by the input format). -/
def pyIsSpace (c : Char) : Bool :=
  c = ' ' || c = '\t' || c = '\n' || c = '\x0d' || c = '\x0b' || c = '\x0c'

/-- `str.strip()`. -/
def pyStrip (s : Str) : Str :=
  ((s.dropWhile pyIsSpace).reverse.dropWhile pyIsSpace).reverse

/-- `str.split()` with no argument: split on whitespace runs, no empty
words. -/
def pySplitWs (s : Str) : List Str :=
  let r := s.foldl
    (fun (acc : List Str × Str) c =>
      if pyIsSpace c then
        (if acc.2 = ([] : Str) then acc else (acc.1 ++ [acc.2.reverse], []))
      else
        (acc.1, c :: acc.2))
    ([], [])
  if r.2 = ([] : Str) then r.1 else r.1 ++ [r.2.reverse]

/-- Index of the first occurrence of a character. -/
def findIdxCh (c : Char) : Str → Option Nat
  | [] => none
  | a :: t => if a = c then some 0 else (findIdxCh c t).map (fun n => n + 1)

/-- Python `str.find`: first index, or −1 when absent. -/
def pyFind (s : Str) (c : Char) : Int :=
  match findIdxCh c s with
  | some i => (i : Int)
  | none => -1

/-- Python slicing `s[:i]`, with negative indices counting from the end
and clamping. -/
def pySliceTo (s : Str) (i : Int) : Str :=
  if 0 ≤ i then s.take i.toNat else s.take (s.length - (-i).toNat)

/-- Python slicing `s[i:]`, with negative indices counting from the end
and clamping. -/
def pySliceFrom (s : Str) (i : Int) : Str :=
  if 0 ≤ i then s.drop i.toNat else s.drop (s.length - (-i).toNat)

/-- `line[line.find('#'):]` — the comment part of a line. -/
def commentPart (line : Str) : Str := pySliceFrom line (pyFind line '#')

/-- `line[:line.find('#')]` — the code part of a line. -/
def codePart (line : Str) : Str := pySliceTo line (pyFind line '#')

/-- Is this character an ASCII digit? -/
def isDigitCh (c : Char) : Bool := '0' ≤ c && c ≤ '9'

/-- Accumulate a digit string; `none` on any non-digit. -/
def digitsToNatAux : Str → Nat → Option Nat
  | [], acc => some acc
  | c :: t, acc =>
      if isDigitCh c then digitsToNatAux t (acc * 10 + (c.toNat - 48)) else none

/-- Value of a non-empty all-digit string. -/
def digitsToNat (s : Str) : Option Nat :=
  if s = ([] : Str) then none else digitsToNatAux s 0

/-- Python `int(str)`: optional sign and digits (`ValueError` → `none`). -/
def pyInt (s0 : Str) : Option Int :=
  let s := pyStrip s0
  match s with
  | '-' :: t => (digitsToNat t).map (fun n => -(n : Int))
  | '+' :: t => (digitsToNat t).map (fun n => (n : Int))
  | t => (digitsToNat t).map (fun n => (n : Int))

/-- Python `float(str)` on the decimal literals of the input format
(optional sign, digits, optional point and digits), as an exact rational;
`ValueError` → `none`. -/
def pyFloat (s0 : Str) : Option Rat :=
  let s := pyStrip s0
  let sgnSplit : Int × Str :=
    match s with
    | '-' :: t => (-1, t)
    | '+' :: t => (1, t)
    | t => (1, t)
  let ip := sgnSplit.2.takeWhile (fun c => c ≠ '.')
  let rest := sgnSplit.2.dropWhile (fun c => c ≠ '.')
  match rest with
  | [] => (digitsToNat ip).map (fun n => (sgnSplit.1 * (n : Int) : Int))
  | '.' :: fp =>
      if ip = ([] : Str) && fp = ([] : Str) then none
      else
        match (if ip = ([] : Str) then some 0 else digitsToNat ip),
            (if fp = ([] : Str) then some 0 else digitsToNat fp) with
        | some i, some f =>
            some (mkRat (sgnSplit.1 * ((i * 10 ^ fp.length + f : Nat) : Int)) (10 ^ fp.length))
        | _, _ => none
  | _ => none

/-- The continuation of the revision metadata pattern after a `#`:
`\s*\$Revision\s*:\s*([0-9.]+)`; returns the captured group. -/
def matchRevisionCont (s : Str) : Option Str :=
  match s.dropWhile pyIsSpace with
  | '$' :: rest =>
      if rest.take 8 = (['R', 'e', 'v', 'i', 's', 'i', 'o', 'n'] : Str) then
        match (rest.drop 8).dropWhile pyIsSpace with
        | ':' :: s3 =>
            let cap := (s3.dropWhile pyIsSpace).takeWhile (fun c => isDigitCh c || c = '.')
            if cap = ([] : Str) then none else some cap
        | _ => none
      else none
  | _ => none

/-- `re.findall(revision_pattern, s)[0]`: the first position whose `#` is
followed by the revision pattern; `\s*` before the `#` never changes the
capture. -/
def findRevisionMatch : Str → Option Str
  | [] => none
  | c :: t =>
      if c = '#' then
        match matchRevisionCont t with
        | some cap => some cap
        | none => findRevisionMatch t
      else findRevisionMatch t

/-- The continuation of the date metadata pattern after `$Date`:
`\s*:\s*(\d+)/(\d+)/(\d+)\s+(\d+):(\d+):(\d+)`; returns the six captured
groups. -/
def matchDateCont (s : Str) : Option (List Str) :=
  match (s.dropWhile pyIsSpace) with
  | ':' :: s1 =>
      let s2 := s1.dropWhile pyIsSpace
      let d1 := s2.takeWhile isDigitCh
      match s2.dropWhile isDigitCh with
      | '/' :: s3 =>
          let d2 := s3.takeWhile isDigitCh
          match s3.dropWhile isDigitCh with
          | '/' :: s4 =>
              let d3 := s4.takeWhile isDigitCh
              let s5 := s4.dropWhile isDigitCh
              if d1 ≠ ([] : Str) && d2 ≠ ([] : Str) && d3 ≠ ([] : Str) &&
                  (s5.take 1).all pyIsSpace && s5 ≠ ([] : Str) then
                let s6 := s5.dropWhile pyIsSpace
                let d4 := s6.takeWhile isDigitCh
                match s6.dropWhile isDigitCh with
                | ':' :: s7 =>
                    let d5 := s7.takeWhile isDigitCh
                    match s7.dropWhile isDigitCh with
                    | ':' :: s8 =>
                        let d6 := s8.takeWhile isDigitCh
                        if d4 ≠ ([] : Str) && d5 ≠ ([] : Str) && d6 ≠ ([] : Str) then
                          some [d1, d2, d3, d4, d5, d6]
                        else none
                    | _ => none
                | _ => none
              else none
          | _ => none
      | _ => none
  | _ => none

/-- `re.findall(date_pattern, s)[0]`: the pattern's greedy leading `.*`
selects the last `$Date` occurrence with a valid continuation. -/
def findDateMatch : Str → Option (List Str)
  | [] => none
  | c :: t =>
      match findDateMatch t with
      | some r => some r
      | none =>
          if c = '$' && t.take 4 = (['D', 'a', 't', 'e'] : Str) then
            matchDateCont (t.drop 4)
          else none

/-- One parsed set of an entity (a `glimmon[name][setnum]` dict): every
field optional, absent keys are `none`. -/
structure GSet where
  warning_low : Option Rat
  caution_low : Option Rat
  caution_high : Option Rat
  warning_high : Option Rat
  expst : Option Str
  expected_state : Option Str
  switchstate : Option Str
deriving DecidableEq

/-- The empty set dict `{}`. -/
def emptyGSet : GSet := ⟨none, none, none, none, none, none, none⟩

/-- One parsed entity (a `glimmon[name]` dict).  `setkeys = []` models the
absence of the `setkeys` key (the parser always creates it non-empty). -/
structure GEntity where
  type? : Option Str
  setkeys : List Int
  sets : List (Int × GSet)
  default : Option Int
  mlmtol : Option Int
  mlmenable : Option Int
  mlimsw : Option Str
deriving DecidableEq

/-- The empty entity dict `{}` created by `MLOAD`/`MMSID`. -/
def emptyGEntity : GEntity := ⟨none, [], [], none, none, none, none⟩

/-- Assoc-list lookup keyed by set number. -/
def alookup {β : Type} (n : Int) (l : List (Int × β)) : Option β :=
  (l.find? (fun p => p.1 = n)).map (fun p => p.2)

/-- Python dict assignment `d[n] = b`: replace the existing entry in
place, else append. -/
def aset {β : Type} (n : Int) (b : β) : List (Int × β) → List (Int × β)
  | [] => [(n, b)]
  | p :: t => if p.1 = n then (n, b) :: t else p :: aset n b t

/-- Update the entry at a set number in place. -/
def amodify {β : Type} (n : Int) (f : β → β) (l : List (Int × β)) : List (Int × β) :=
  l.map (fun p => if p.1 = n then (p.1, f p.2) else p)

/-- Assoc-list lookup keyed by name. -/
def slookup {β : Type} (k : Str) (l : List (Str × β)) : Option β :=
  (l.find? (fun p => p.1 = k)).map (fun p => p.2)

/-- Python dict assignment `d[k] = b` keyed by name. -/
def sset {β : Type} (k : Str) (b : β) : List (Str × β) → List (Str × β)
  | [] => [(k, b)]
  | p :: t => if p.1 = k then (k, b) :: t else p :: sset k b t

/-- Update the entry at a name in place. -/
def smodify {β : Type} (k : Str) (f : β → β) (l : List (Str × β)) : List (Str × β) :=
  l.map (fun p => if p.1 = k then (p.1, f p.2) else p)

/-- The parsed `glimmon` dictionary.  Entity keys (MSID names) live in
`entities`; the five metadata keys (`revision`, `version`, `mlmdeftol`,
`mlmthrow`, `date`), which `filter_msids` strips from the key list, are
separate fields; each is `none` while the corresponding directive or
comment has not been seen. -/
structure Glimmon where
  entities : List (Str × GEntity)
  revision : Option Str
  version : Option Str
  mlmdeftol : Option Int
  mlmthrow : Option Int
  date : Option (List Str)
deriving DecidableEq

/-- The initial `glimmon = {}`. -/
def emptyGlimmon : Glimmon := ⟨[], none, none, none, none, none⟩

/-- The exceptions `read_glimmon` can raise on malformed directive
arguments. -/
inductive ParseErr : Type where
  | indexError
  | valueError
  | nameError
  | keyError
deriving DecidableEq

/-- Parser state: the dictionary plus the implicit current-entity cursor
(the Python local `name`, unbound before the first `MLOAD`/`MMSID`). -/
structure ParseState where
  g : Glimmon
  name : Option Str
deriving DecidableEq

/-- The directive keywords. -/
def kwMLOAD : Str := ['M', 'L', 'O', 'A', 'D']

def kwMMSID : Str := ['M', 'M', 'S', 'I', 'D']

def kwMLIMIT : Str := ['M', 'L', 'I', 'M', 'I', 'T']

def kwMLMTOL : Str := ['M', 'L', 'M', 'T', 'O', 'L']

def kwMLIMSW : Str := ['M', 'L', 'I', 'M', 'S', 'W']

def kwMLMENABLE : Str := ['M', 'L', 'M', 'E', 'N', 'A', 'B', 'L', 'E']

def kwMLMDEFTOL : Str := ['M', 'L', 'M', 'D', 'E', 'F', 'T', 'O', 'L']

def kwMLMTHROW : Str := ['M', 'L', 'M', 'T', 'H', 'R', 'O', 'W']

def kwDEFAULT : Str := ['D', 'E', 'F', 'A', 'U', 'L', 'T']

def kwSWITCHSTATE : Str := ['S', 'W', 'I', 'T', 'C', 'H', 'S', 'T', 'A', 'T', 'E']

def kwPPENG : Str := ['P', 'P', 'E', 'N', 'G']

def kwEXPST : Str := ['E', 'X', 'P', 'S', 'T']

def tyLimit : Str := ['l', 'i', 'm', 'i', 't']

def tyExpectedState : Str :=
  ['e', 'x', 'p', 'e', 'c', 't', 'e', 'd', '_', 's', 't', 'a', 't', 'e']

/-- `words[i]`, raising `IndexError` when out of range. -/
def wordAt (words : List Str) (i : Nat) : Except ParseErr Str :=
  match words.get? i with
  | some w => .ok w
  | none => .error .indexError

/-- `int(words[i])`, raising `IndexError`/`ValueError`. -/
def intAt (words : List Str) (i : Nat) : Except ParseErr Int := do
  let w ← wordAt words i
  match pyInt w with
  | some n => .ok n
  | none => .error .valueError

/-- `float(words[i])`. -/
def floatAt (words : List Str) (i : Nat) : Except ParseErr Rat := do
  let w ← wordAt words i
  match pyFloat w with
  | some q => .ok q
  | none => .error .valueError

/-- The current entity name (`NameError` when the cursor is unbound). -/
def currentName (st : ParseState) : Except ParseErr Str :=
  match st.name with
  | some nm => .ok nm
  | none => .error .nameError

/-- `glimmon[name]` (`KeyError` when absent). -/
def currentEntity (g : Glimmon) (nm : Str) : Except ParseErr GEntity :=
  match slookup nm g.entities with
  | some e => .ok e
  | none => .error .keyError

/-- The body of the `MLIMIT` branch: open set `setnum`, record the set
key, then apply the optional `DEFAULT` / `SWITCHSTATE` / `PPENG` /
`EXPST` clauses in source order. -/
def processMLIMIT (st : ParseState) (words : List Str) : Except ParseErr ParseState := do
  let setnum ← intAt words 2
  let nm ← currentName st
  let e0 ← currentEntity st.g nm
  let e1 := { e0 with sets := aset setnum emptyGSet e0.sets,
                      setkeys := e0.setkeys ++ [setnum] }
  let e2 := if kwDEFAULT ∈ words then { e1 with default := some setnum } else e1
  let e3 ← (do
    if kwSWITCHSTATE ∈ words then
      match words.findIdx? (fun w => w = kwSWITCHSTATE) with
      | some ind => do
          let w ← wordAt words (ind + 1)
          pure { e2 with sets := amodify setnum (fun s => { s with switchstate := some w }) e2.sets }
      | none => pure e2
    else pure e2)
  let e4 ← (do
    if kwPPENG ∈ words then
      match words.findIdx? (fun w => w = kwPPENG) with
      | some ind => do
          let wl ← floatAt words (ind + 1)
          let cl ← floatAt words (ind + 2)
          let ch ← floatAt words (ind + 3)
          let wh ← floatAt words (ind + 4)
          pure { e3 with type? := some tyLimit,
                         sets := amodify setnum (fun s =>
                           { s with warning_low := some wl, caution_low := some cl,
                                    caution_high := some ch, warning_high := some wh }) e3.sets }
      | none => pure e3
    else pure e3)
  let e5 ← (do
    if kwEXPST ∈ words then
      match words.findIdx? (fun w => w = kwEXPST) with
      | some ind => do
          let w ← wordAt words (ind + 1)
          pure { e4 with type? := some tyExpectedState,
                         sets := amodify setnum (fun s => { s with expst := some w }) e4.sets }
      | none => pure e4
    else pure e4)
  pure { st with g := { st.g with entities := sset nm e5 st.g.entities } }

/-- Process one line of the G_LIMMON file: split off the comment,
tokenize, and run the recognized-directive chain; unrecognized lines fall
through (silently skipped); metadata is read from comment-only lines. -/
def processLine (st : ParseState) (line : Str) : Except ParseErr ParseState := do
  let comment_line := pyStrip (commentPart line)
  let line2 := pyStrip (codePart line)
  let words := pySplitWs line2
  match words with
  | [] =>
      match findRevisionMatch comment_line with
      | some cap =>
          pure { st with g := { st.g with revision := some (pyStrip cap),
                                          version := some (pyStrip cap) } }
      | none =>
          match findDateMatch comment_line with
          | some d => pure { st with g := { st.g with date := some d } }
          | none => pure st
  | w0 :: _ =>
      if w0 = kwMLOAD && words.length = 2 then do
        let nm ← wordAt words 1
        pure { st with g := { st.g with entities := sset nm emptyGEntity st.g.entities },
                       name := some nm }
      else if w0 = kwMMSID then do
        let nm ← wordAt words 1
        pure { st with g := { st.g with entities := sset nm emptyGEntity st.g.entities },
                       name := some nm }
      else if w0 = kwMLIMIT then
        processMLIMIT st words
      else if w0 = kwMLMTOL then do
        let n ← intAt words 1
        let nm ← currentName st
        let _ ← currentEntity st.g nm
        pure { st with g := { st.g with
          entities := smodify nm (fun e => { e with mlmtol := some n }) st.g.entities } }
      else if w0 = kwMLIMSW then do
        let w ← wordAt words 1
        let nm ← currentName st
        let _ ← currentEntity st.g nm
        pure { st with g := { st.g with
          entities := smodify nm (fun e => { e with mlimsw := some w }) st.g.entities } }
      else if w0 = kwMLMENABLE then do
        let n ← intAt words 1
        let nm ← currentName st
        let _ ← currentEntity st.g nm
        pure { st with g := { st.g with
          entities := smodify nm (fun e => { e with mlmenable := some n }) st.g.entities } }
      else if w0 = kwMLMDEFTOL then do
        let n ← intAt words 1
        pure { st with g := { st.g with mlmdeftol := some n } }
      else if w0 = kwMLMTHROW then do
        let n ← intAt words 1
        pure { st with g := { st.g with mlmthrow := some n } }
      else
        match findRevisionMatch line2 with
        | some cap =>
            pure { st with g := { st.g with revision := some (pyStrip cap),
                                            version := some (pyStrip cap) } }
        | none => pure st

/-- `read_glimmon`: fold the line processor over the file's lines. -/
def read_glimmon (lines : List Str) : Except ParseErr Glimmon := do
  let st ← lines.foldlM processLine ⟨emptyGlimmon, none⟩
  pure st.g

/-- The `'none'` sentinel string. -/
def sNone : Str := ['n', 'o', 'n', 'e']

/-! ### Reference defaulter (`fill_limits` / `fill_states` / `update_msid`)
and row projector (`GLimit`) -/

/-- `str.lower()`. -/
def strLower (s : Str) : Str := s.map Char.toLower

/-- `str.upper()`. -/
def strUpper (s : Str) : Str := s.map Char.toUpper

/-- One entity of the reference snapshot (`tdb[msid]`): optional limit
and expected-state set dicts keyed by 1-based set number, default set
numbers (`none` models NaN, per `is_not_nan`), switch MSIDs, and
per-1-based-set switch state codes (`lim_switch`/`es_switch`, looked up
with a `try/except` that falls back to `'none'`). -/
structure TdbEntity where
  limit : Option (List (Int × GSet))
  exp_state : Option (List (Int × GSet))
  limit_default_set_num : Option Int
  es_default_set_num : Option Int
  limit_switch_msid : Option Str
  es_switch_msid : Option Str
  lim_switch : Option (List (Int × Str))
  es_switch : Option (List (Int × Str))
deriving DecidableEq

/-- The reference snapshot: a read-only map from (lower-case) MSID names
to entities. -/
abbrev Tdb : Type := List (Str × TdbEntity)

/-- `assign_sets`: copy the reference sets, renumbering 1-based set
numbers to 0-based set keys, and collect the key list. -/
def assign_sets (dbsets : List (Int × GSet)) : List (Int × GSet) × List Int :=
  (dbsets.map (fun p => (p.1 - 1, p.2)), dbsets.map (fun p => p.1 - 1))

/-- Python `dict.update`: the override's keys win; overridden per-set
dicts are replaced wholesale; new set numbers append in override order;
`setkeys = []` stands for an absent key. -/
def entityUpdate (base override : GEntity) : GEntity :=
  { type? := override.type?.orElse (fun _ => base.type?)
    setkeys := if override.setkeys ≠ [] then override.setkeys else base.setkeys
    sets := (base.sets.map (fun p =>
        match alookup p.1 override.sets with
        | some s => (p.1, s)
        | none => p)) ++
      override.sets.filter (fun p => (alookup p.1 base.sets).isNone)
    default := override.default.orElse (fun _ => base.default)
    mlmtol := override.mlmtol.orElse (fun _ => base.mlmtol)
    mlmenable := override.mlmenable.orElse (fun _ => base.mlmenable)
    mlimsw := override.mlimsw.orElse (fun _ => base.mlimsw) }

/-- `fill_limits`: build the reference-derived `limits` dict for an MSID
whose reference entity has limit data, then overlay the revision's
declared fields (`limits.update(g[msid.upper()])`) and store the result
back (`g[msid.upper()].update(limits)`); `none` models the `KeyError`
raised when `g[msid.upper()]` or `g['mlmdeftol']` is missing. -/
def fill_limits (te : TdbEntity) (g : Glimmon) (msid : Str) : Option Glimmon :=
  match te.limit with
  | none => none
  | some L =>
  match slookup (strUpper msid) g.entities with
  | none => none
  | some gE =>
  let sk := assign_sets L
  let defv : Int :=
    match te.limit_default_set_num with
    | some n => n - 1
    | none => 0
  let swPair : Option Str × List (Int × GSet) :=
    match te.limit_switch_msid with
    | none => (none, sk.1)
    | some sw =>
        match te.lim_switch with
        | none => (some sw, sk.1)
        | some LS =>
            (some sw,
              sk.2.foldl
                (fun acc setkey =>
                  amodify setkey
                    (fun s =>
                      { s with switchstate := some ((alookup (setkey + 1) LS).getD sNone) })
                    acc)
                sk.1)
  match (match gE.mlmtol with
    | none =>
        match g.mlmdeftol with
        | some dtol => some (some dtol)
        | none => none
    | some _ => some none) with
  | none => none
  | some mlmtolv =>
  let mlmenv : Option Int := if gE.mlmenable.isNone then some 1 else none
  let limits : GEntity :=
    { type? := some tyLimit, setkeys := sk.2, sets := swPair.2, default := some defv,
      mlmtol := mlmtolv, mlmenable := mlmenv, mlimsw := swPair.1 }
  let merged := entityUpdate limits gE
  some { g with entities := sset (strUpper msid) merged g.entities }

/-- `fill_states`: the expected-state analogue of `fill_limits`,
including the `expected_state` → `expst` renaming loop. -/
def fill_states (te : TdbEntity) (g : Glimmon) (msid : Str) : Option Glimmon := do
  let L ← te.exp_state
  let gE ← slookup (strUpper msid) g.entities
  let sk := assign_sets L
  let defv : Int :=
    match te.es_default_set_num with
    | some n => n - 1
    | none => 0
  let swPair : Option Str × List (Int × GSet) :=
    match te.es_switch_msid with
    | none => (none, sk.1)
    | some sw =>
        match te.es_switch with
        | none => (some sw, sk.1)
        | some LS =>
            (some sw,
              sk.2.foldl
                (fun acc setkey =>
                  amodify setkey
                    (fun s =>
                      { s with switchstate := some ((alookup (setkey + 1) LS).getD sNone) })
                    acc)
                sk.1)
  let sets2 :=
    sk.2.foldl
      (fun acc setkey =>
        amodify setkey
          (fun s =>
            match s.expected_state with
            | some v => { s with expst := some v, expected_state := none }
            | none => s)
          acc)
      swPair.2
  let mlmtolv ← (match gE.mlmtol with
    | none =>
        match g.mlmdeftol with
        | some dtol => some (some dtol)
        | none => none
    | some _ => some none)
  let mlmenv : Option Int := if gE.mlmenable.isNone then some 1 else none
  let states : GEntity :=
    { type? := some tyExpectedState, setkeys := sk.2, sets := sets2, default := some defv,
      mlmtol := mlmtolv, mlmenable := mlmenv, mlimsw := swPair.1 }
  let merged := entityUpdate states gE
  some { g with entities := sset (strUpper msid) merged g.entities }

/-- `update_msid`: fill limits or expected states from the reference
snapshot when the (lower-case) MSID is present there; otherwise leave the
revision data untouched. -/
def update_msid (msid : Str) (tdb : Tdb) (g : Glimmon) : Option Glimmon :=
  match slookup msid tdb with
  | none => some g
  | some te =>
      if te.limit.isSome then fill_limits te g msid
      else if te.exp_state.isSome then fill_states te g msid
      else some g

/-- The caller loop `for msid in list(g.keys()): update_msid(msid.lower(),
tdb, g)` (the metadata keys are never reference MSIDs, so only entity
keys matter). -/
def updateAll (tdb : Tdb) (g : Glimmon) : Option Glimmon :=
  (g.entities.map (fun p => p.1)).foldlM (fun acc k => update_msid (strLower k) tdb acc) g

/-- Fuel-driven body of the Python remove-while-iterating loop; any fuel
of at least `l.length - i` runs the loop to completion. -/
def popLoopAux {α : Type} (p : α → Bool) : Nat → List α → Nat → List α
  | 0, l, _ => l
  | fuel + 1, l, i =>
      if h : i < l.length then
        if p (l.get ⟨i, h⟩) then popLoopAux p fuel (l.eraseIdx i) (i + 1)
        else popLoopAux p fuel l (i + 1)
      else l

/-- The Python remove-while-iterating loop (`for n, row in enumerate(l):
if p(row): l.pop(n)`, and the equivalent `msids.remove(msid)` loop): the
internal index advances after each removal, skipping the element that
slid into the removed slot. -/
def popLoopP {α : Type} (p : α → Bool) (l : List α) (i : Nat) : List α :=
  popLoopAux p l.length l i

/-- `GLimit.filter_msids`: the entity keys with untyped MSIDs removed by
the remove-while-iterating loop (the five metadata keys are already
separate fields of `Glimmon`). -/
def filter_msids (g : Glimmon) : List Str :=
  popLoopP
    (fun m =>
      match slookup m g.entities with
      | some e => e.type?.isNone
      | none => false)
    (g.entities.map (fun p => p.1)) 0

/-- One limit row as appended by `gen_row_data` (`'1'`/`'0'`/`'none'`
string fallbacks land in INTEGER/REAL/TEXT columns; SQLite's column
affinity stores the numeric strings as the corresponding numbers). -/
def mkLimitRow (msid : Str) (sk : Int) (s : GSet) (e : GEntity)
    (datesec : Int) (dateStr : Str) (modv : Int) : Row :=
  { msid := strLower msid
    setkey := sk
    datesec := datesec
    date := dateStr
    modversion := modv
    mlmenable := e.mlmenable.getD 1
    mlmtol := e.mlmtol.getD 1
    default_set := e.default.getD 0
    mlimsw := (e.mlimsw.map strLower).getD sNone
    rest := [(s.caution_high.map Val.num).getD (Val.txt sNone),
      (s.caution_low.map Val.num).getD (Val.txt sNone),
      (s.warning_high.map Val.num).getD (Val.txt sNone),
      (s.warning_low.map Val.num).getD (Val.txt sNone),
      Val.txt ((s.switchstate.map strLower).getD sNone)] }

/-- One expected-state row as appended by `gen_row_data`. -/
def mkStateRow (msid : Str) (sk : Int) (s : GSet) (e : GEntity)
    (datesec : Int) (dateStr : Str) (modv : Int) : Row :=
  { msid := strLower msid
    setkey := sk
    datesec := datesec
    date := dateStr
    modversion := modv
    mlmenable := e.mlmenable.getD 1
    mlmtol := e.mlmtol.getD 1
    default_set := e.default.getD 0
    mlimsw := (e.mlimsw.map strLower).getD sNone
    rest := [Val.txt ((s.expst.map strLower).getD sNone),
      Val.txt ((s.switchstate.map strLower).getD sNone)] }

/-- The per-MSID body of `gen_row_data`: skip entities declared disabled
(`('mlmenable', 0) in mdata.items()`), report-and-skip untyped ones, and
emit one row per declared set key that has a set dict. -/
def rowsForMsid (msid : Str) (e : GEntity) (datesec : Int) (dateStr : Str) (modv : Int) :
    List Row × List Row :=
  if e.mlmenable = some 0 then ([], [])
  else
    match e.type? with
    | none => ([], [])
    | some ty =>
        if strLower ty = tyLimit then
          (e.setkeys.filterMap (fun sk =>
            (alookup sk e.sets).map (fun s => mkLimitRow msid sk s e datesec dateStr modv)), [])
        else if strLower ty = tyExpectedState then
          ([], e.setkeys.filterMap (fun sk =>
            (alookup sk e.sets).map (fun s => mkStateRow msid sk s e datesec dateStr modv)))
        else ([], [])

/-- The two `discard_disabled_sets` removal loops of `gen_row_data`
(`if int(row[5]) == 0: l.pop(n)` while enumerating). -/
def discardDisabled (rows : List Row) : List Row :=
  popLoopP (fun r => r.mlmenable = 0) rows 0

/-- `GLimit.gen_row_data`, given the filtered MSID list and the
version/date stamps taken from the class attributes. -/
def gen_row_data (msids : List Str) (g : Glimmon) (datesec : Int) (dateStr : Str)
    (modv : Int) (discard : Bool) : List Row × List Row :=
  let per := msids.map (fun m =>
    match slookup m g.entities with
    | some e => rowsForMsid m e datesec dateStr modv
    | none => ([], []))
  let lims := (per.map (fun p => p.1)).flatten
  let ess := (per.map (fun p => p.2)).flatten
  if discard then (discardDisabled lims, discardDisabled ess)
  else (lims, ess)

/-- `'{}-{}-{} {}:{}:{}'.format(d[0], ..., d[5])`. -/
def formatDate (d : List Str) : Option Str :=
  match d with
  | d0 :: d1 :: d2 :: d3 :: d4 :: d5 :: _ =>
      some (d0 ++ ['-'] ++ d1 ++ ['-'] ++ d2 ++ [' '] ++ d3 ++ [':'] ++ d4 ++ [':'] ++ d5)
  | _ => none

/-- `GLimit.__init__` followed by `gen_row_data`: require the five
metadata keys (else `KeyError`), format the date, parse
`int(self.revision[2:])`, filter the MSIDs and project.  The `datesec`
argument stands for the external `Chandra.Time.DateTime(self.date).secs`
call (an external collaborator; its value is opaque here). -/
def glimit_gen_row_data (g : Glimmon) (datesec : Int) (discard : Bool) :
    Option (List Row × List Row) :=
  match g.revision with
  | none => none
  | some rev =>
  match g.version with
  | none => none
  | some _ =>
  match g.mlmdeftol with
  | none => none
  | some _ =>
  match g.mlmthrow with
  | none => none
  | some _ =>
  match g.date with
  | none => none
  | some d =>
  match formatDate d with
  | none => none
  | some dateStr =>
  match pyInt (rev.drop 2) with
  | none => none
  | some modv =>
  some (gen_row_data (filter_msids g) g datesec dateStr modv discard)

/-! ### Concrete scenario data (used by witnesses and counterexamples) -/

def sFoo : Str := ['f', 'o', 'o']

def sBar : Str := ['b', 'a', 'r']

def sDate1 : Str := ['d', '1']

def sDate2 : Str := ['d', '2']

/-- Revision-1 limit row for entity FOO, set 0, enabled. -/
def fooRow : Row :=
  ⟨sFoo, 0, 100, sDate1, 1, 1, 3, 0, sNone,
    [Val.num 11, Val.num 10, Val.num 12, Val.num 9, Val.txt sNone]⟩

/-- Revision-1 limit row for entity BAR, set 0, `caution_high = 10`. -/
def barRowV1 : Row :=
  ⟨sBar, 0, 100, sDate1, 1, 1, 3, 0, sNone,
    [Val.num 10, Val.num 0, Val.num 20, Val.num 0, Val.txt sNone]⟩

/-- Revision-2 redeclaration of BAR, identical except `caution_high = 12`. -/
def barRowV2 : Row :=
  ⟨sBar, 0, 200, sDate2, 2, 1, 3, 0, sNone,
    [Val.num 12, Val.num 0, Val.num 20, Val.num 0, Val.txt sNone]⟩

/-- A one-entity revision database. -/
def revFoo : RevDB := ⟨[fooRow], [], 1, 100, sDate1⟩

/-- An empty fresh store. -/
def store0 : StoreDB := ⟨[], [], [], []⟩

/-- A valid but different enumeration order: reversed set differences. -/
def revChoice : DiffChoice :=
  ⟨fun xs ys => (canonSetDiff xs ys).reverse, fun xs ys => (canonSetDiff xs ys).reverse⟩

/-- Upper-case FOO, as a parsed entity key. -/
def sFooU : Str := ['F', 'O', 'O']

/-- A parsed set with the four thresholds declared. -/
def gsPlain : GSet :=
  { emptyGSet with warning_low := some 1, caution_low := some 2, caution_high := some 3, warning_high := some 4 }

/-- A parsed limit entity with one set, no declared tolerance or enable
flag. -/
def ePlain : GEntity :=
  { type? := some tyLimit
    setkeys := [0]
    sets := [(0, gsPlain)]
    default := none
    mlmtol := none
    mlmenable := none
    mlimsw := none }

/-- The same entity explicitly disabled (`MLMENABLE 0`). -/
def eDisabledX : GEntity := { ePlain with mlmenable := some 0 }

/-- A six-field parsed `$Date` tuple. -/
def dTuple : List Str :=
  [['0', '1'], ['0', '2'], ['2', '0', '2', '0'], ['0', '4'], ['0', '5'], ['0', '6']]

/-- A parsed file whose only entity is absent from the reference
snapshot, with `MLMDEFTOL 3` and no `MLMTOL` for the entity. -/
def gNoTdb : Glimmon :=
  { entities := [(sFooU, ePlain)]
    revision := some ['2', '.', '5']
    version := some ['2', '.', '5']
    mlmdeftol := some 3
    mlmthrow := some 0
    date := some dTuple }

/-- The same file with the entity disabled. -/
def gDisabled : Glimmon := { gNoTdb with entities := [(sFooU, eDisabledX)] }

/-- A reference set dict with the four thresholds. -/
def gsTdbFoo : GSet :=
  { emptyGSet with warning_low := some 5, caution_low := some 6, caution_high := some 7, warning_high := some 8 }

/-- A reference-snapshot entity carrying limit data for one 1-based set. -/
def teFoo : TdbEntity :=
  { limit := some [(1, gsTdbFoo)]
    exp_state := none
    limit_default_set_num := none
    es_default_set_num := none
    limit_switch_msid := none
    es_switch_msid := none
    lim_switch := none
    es_switch := none }

/-- A reference snapshot containing `foo`. -/
def tdbFoo : Tdb := [(sFoo, teFoo)]

/-- A table has a unique latest row per key (the situation produced by
`gen_row_data`, whose repeated keys carry identical rows). -/
def uniqLatest (tbl : List Row) : Prop :=
  ∀ r ∈ latestRows tbl, ∀ s ∈ latestRows tbl, msKey r = msKey s → r = s

/-- The store obtained by merging `revFoo` into the fresh store once. -/
def storeFoo1 : StoreDB :=
  match mergeStep revFoo store0 with
  | .ok s => s
  | .error _ => store0

/-! ### Order-theoretic facts about the comparators -/

theorem chLt_asymm {a b : Char} (h : chLt a b = true) : chLt b a = false := by
  simp only [chLt, decide_eq_true_eq, decide_eq_false_iff_not] at *
  omega

theorem chLt_eq_of_not {a b : Char} (h1 : chLt a b = false) (h2 : chLt b a = false) : a = b := by
  simp only [chLt, decide_eq_false_iff_not] at h1 h2
  have h : a.toNat = b.toNat := by omega
  unfold Char.toNat at h
  exact Char.eq_of_val_eq (UInt32.toNat.inj h)

theorem strLtB_irrefl : ∀ s : Str, strLtB s s = false
  | [] => rfl
  | a :: s => by
      simp only [strLtB]
      have : chLt a a = false := by simp [chLt]
      simp [this, strLtB_irrefl s]

theorem strLtB_asymm : ∀ {s t : Str}, strLtB s t = true → strLtB t s = false
  | [], [], h => by simp [strLtB] at h
  | [], _ :: _, _ => rfl
  | _ :: _, [], h => by simp [strLtB] at h
  | a :: s, b :: t, h => by
      simp only [strLtB] at h ⊢
      by_cases hab : chLt a b = true
      · simp [hab, chLt_asymm hab]
      · simp only [Bool.not_eq_true] at hab
        simp only [hab, if_false] at h
        by_cases hba : chLt b a = true
        · simp [hba] at h
        · simp only [Bool.not_eq_true] at hba
          simp only [hba, if_false] at h ⊢
          simp [hab, strLtB_asymm h]

theorem strLtB_eq_of_not : ∀ {s t : Str}, strLtB s t = false → strLtB t s = false → s = t
  | [], [], _, _ => rfl
  | [], _ :: _, h, _ => by simp [strLtB] at h
  | _ :: _, [], _, h => by simp [strLtB] at h
  | a :: s, b :: t, h1, h2 => by
      simp only [strLtB] at h1 h2
      by_cases hab : chLt a b = true
      · simp [hab] at h1
      · simp only [Bool.not_eq_true] at hab
        by_cases hba : chLt b a = true
        · simp [hba] at h2
        · simp only [Bool.not_eq_true] at hba
          simp only [hab, hba, if_false] at h1 h2
          have he := chLt_eq_of_not hab hba
          rw [he, strLtB_eq_of_not h1 h2]

theorem strLtB_trans : ∀ {s t u : Str},
    strLtB s t = true → strLtB t u = true → strLtB s u = true
  | [], [], _, h, _ => by simp [strLtB] at h
  | [], _ :: _, [], _, h => by simp [strLtB] at h
  | [], _ :: _, _ :: _, _, _ => rfl
  | _ :: _, [], _, h, _ => by simp [strLtB] at h
  | _ :: _, _ :: _, [], _, h => by simp [strLtB] at h
  | a :: s, b :: t, c :: u, h1, h2 => by
      simp only [strLtB] at h1 h2 ⊢
      simp only [chLt, decide_eq_true_eq] at *
      by_cases hab : a.toNat < b.toNat
      · by_cases hbc : b.toNat < c.toNat
        · have : a.toNat < c.toNat := by omega
          simp [this]
        · simp only [if_neg hbc] at h2
          by_cases hcb : c.toNat < b.toNat
          · simp [hcb] at h2
          · have : a.toNat < c.toNat := by omega
            simp [this]
      · simp only [if_neg hab] at h1
        by_cases hba : b.toNat < a.toNat
        · simp [hba] at h1
        · by_cases hbc : b.toNat < c.toNat
          · have : a.toNat < c.toNat := by omega
            simp [this]
          · simp only [if_neg hbc] at h2
            by_cases hcb : c.toNat < b.toNat
            · simp [hcb] at h2
            · have hac : ¬ a.toNat < c.toNat := by omega
              have hca : ¬ c.toNat < a.toNat := by omega
              simp only [if_neg hac, if_neg hca]
              simp only [if_neg hba] at h1
              simp only [if_neg hcb] at h2
              exact strLtB_trans h1 h2

theorem keyLE_total (a b : MsKey) : keyLE a b = true ∨ keyLE b a = true := by
  by_cases h1 : strLtB a.1 b.1 = true
  · exact Or.inl (by simp [keyLE, h1])
  · by_cases h2 : strLtB b.1 a.1 = true
    · exact Or.inr (by simp [keyLE, h2])
    · simp only [Bool.not_eq_true] at h1 h2
      have he := strLtB_eq_of_not h1 h2
      rcases le_total a.2 b.2 with h | h
      · exact Or.inl (by simp [keyLE, he, h])
      · exact Or.inr (by simp [keyLE, he.symm, h])

theorem keyLE_trans {a b c : MsKey} (h1 : keyLE a b = true) (h2 : keyLE b c = true) :
    keyLE a c = true := by
  simp only [keyLE, Bool.or_eq_true, Bool.and_eq_true, decide_eq_true_eq] at h1 h2 ⊢
  rcases h1 with h1 | ⟨h1e, h1i⟩
  · rcases h2 with h2 | ⟨h2e, h2i⟩
    · exact Or.inl (strLtB_trans h1 h2)
    · exact Or.inl (h2e ▸ h1)
  · rcases h2 with h2 | ⟨h2e, h2i⟩
    · exact Or.inl (h1e ▸ h2)
    · exact Or.inr ⟨h1e.trans h2e, le_trans h1i h2i⟩

theorem keyLE_antisymm {a b : MsKey} (h1 : keyLE a b = true) (h2 : keyLE b a = true) :
    a = b := by
  simp only [keyLE, Bool.or_eq_true, Bool.and_eq_true, decide_eq_true_eq] at h1 h2
  rcases h1 with h1 | ⟨h1e, h1i⟩
  · rcases h2 with h2 | ⟨h2e, h2i⟩
    · have := strLtB_asymm h1
      rw [this] at h2
      exact absurd h2 (by simp)
    · rw [h2e] at h1
      rw [strLtB_irrefl] at h1
      exact absurd h1 (by simp)
  · rcases h2 with h2 | ⟨h2e, h2i⟩
    · rw [h1e] at h2
      rw [strLtB_irrefl] at h2
      exact absurd h2 (by simp)
    · exact Prod.ext_iff.2 ⟨h1e, le_antisymm h1i h2i⟩

theorem keyLE_total_bool (a b : MsKey) : (keyLE a b || keyLE b a) = true := by
  rcases keyLE_total a b with h | h <;> simp [h]

instance : IsAntisymm MsKey (fun a b => keyLE a b = true) := ⟨fun _ _ => keyLE_antisymm⟩

theorem keyLE_trans_expl : ∀ (a b c : MsKey),
    keyLE a b = true → keyLE b c = true → keyLE a c = true :=
  fun _ _ _ h1 h2 => keyLE_trans h1 h2

theorem chLE_trans {a b c : ChRow} (h1 : chLE a b = true) (h2 : chLE b c = true) :
    chLE a c = true := keyLE_trans h1 h2

theorem chLE_total_bool (a b : ChRow) : (chLE a b || chLE b a) = true :=
  keyLE_total_bool _ _

theorem chLE_trans_expl : ∀ (a b c : ChRow),
    chLE a b = true → chLE b c = true → chLE a c = true :=
  fun _ _ _ h1 h2 => chLE_trans h1 h2

/-! ### Sorting lemmas -/

theorem insertB_perm {α : Type} (le : α → α → Bool) (x : α) :
    ∀ l : List α, List.Perm (insertB le x l) (x :: l)
  | [] => List.Perm.refl _
  | y :: t => by
      by_cases h : le x y = true
      · simp only [insertB, if_pos h]
        exact List.Perm.refl _
      · simp only [insertB, if_neg h]
        exact ((insertB_perm le x t).cons y).trans (List.Perm.swap x y t)

theorem pySorted_perm {α : Type} (le : α → α → Bool) :
    ∀ l : List α, List.Perm (pySorted le l) l
  | [] => List.Perm.refl _
  | x :: t => (insertB_perm le x (pySorted le t)).trans ((pySorted_perm le t).cons x)

theorem pairwise_insertB {α : Type} {le : α → α → Bool}
    (htrans : ∀ a b c, le a b = true → le b c = true → le a c = true)
    (htot : ∀ a b, (le a b || le b a) = true) (x : α) :
    ∀ {l : List α}, List.Pairwise (fun a b => le a b = true) l →
      List.Pairwise (fun a b => le a b = true) (insertB le x l)
  | [], _ => List.pairwise_singleton _ x
  | y :: t, h => by
      rw [List.pairwise_cons] at h
      by_cases hxy : le x y = true
      · simp only [insertB, if_pos hxy]
        rw [List.pairwise_cons]
        refine ⟨?_, List.pairwise_cons.mpr h⟩
        intro z hz
        rcases List.mem_cons.mp hz with hz | hz
        · subst hz; exact hxy
        · exact htrans x y z hxy (h.1 z hz)
      · have hyx : le y x = true := by
          have := htot x y
          rcases Bool.or_eq_true_iff.mp this with h' | h'
          · exact absurd h' hxy
          · exact h'
        simp only [insertB, if_neg hxy]
        rw [List.pairwise_cons]
        refine ⟨?_, pairwise_insertB htrans htot x h.2⟩
        intro z hz
        rcases List.mem_cons.mp ((insertB_perm le x t).mem_iff.mp hz) with hz | hz
        · subst hz; exact hyx
        · exact h.1 z hz

theorem pySorted_sorted {α : Type} {le : α → α → Bool}
    (htrans : ∀ a b c, le a b = true → le b c = true → le a c = true)
    (htot : ∀ a b, (le a b || le b a) = true) :
    ∀ l : List α, List.Pairwise (fun a b => le a b = true) (pySorted le l)
  | [] => List.Pairwise.nil
  | x :: t => pairwise_insertB htrans htot x (pySorted_sorted htrans htot t)

theorem sortK_perm (l : List MsKey) : List.Perm (sortK l) l := pySorted_perm keyLE l

theorem mem_sortK {k : MsKey} {l : List MsKey} : k ∈ sortK l ↔ k ∈ l :=
  (sortK_perm l).mem_iff

theorem sortK_sorted (l : List MsKey) :
    List.Sorted (fun a b => keyLE a b = true) (sortK l) :=
  pySorted_sorted keyLE_trans_expl keyLE_total_bool l

/-- Permutations of a key list have the same sorted form: the sort makes
the pass output independent of the `set` iteration order. -/
theorem sortK_eq_of_perm {l1 l2 : List MsKey} (h : List.Perm l1 l2) :
    sortK l1 = sortK l2 := by
  refine List.eq_of_perm_of_sorted ?_ (sortK_sorted l1) (sortK_sorted l2)
  exact ((sortK_perm l1).trans h).trans (sortK_perm l2).symm

theorem sortT_perm (l : List ChRow) : List.Perm (sortT l) l := pySorted_perm chLE l

theorem sortT_sorted (l : List ChRow) :
    List.Sorted (fun a b => chLE a b = true) (sortT l) :=
  pySorted_sorted chLE_trans_expl chLE_total_bool l

/-- The tuple sort keys only on `(msid, setkey)`, so permutations of a
tuple list have sorted forms with identical key sequences. -/
theorem sortT_map_chKey_eq_of_perm {l1 l2 : List ChRow} (h : List.Perm l1 l2) :
    (sortT l1).map chKey = (sortT l2).map chKey := by
  refine List.eq_of_perm_of_sorted (r := fun a b => keyLE a b = true) ?_ ?_ ?_
  · exact (((sortT_perm l1).trans h).trans (sortT_perm l2).symm).map chKey
  · exact List.Pairwise.map chKey (fun _ _ hab => hab) (sortT_sorted l1)
  · exact List.Pairwise.map chKey (fun _ _ hab => hab) (sortT_sorted l2)

theorem orderDMS_perm (tbl : List Row) : List.Perm (orderDMS tbl) tbl :=
  pySorted_perm dmsLE tbl

theorem mem_orderDMS {r : Row} {tbl : List Row} : r ∈ orderDMS tbl ↔ r ∈ tbl :=
  (orderDMS_perm tbl).mem_iff


/-! ### Basic facts about the queries -/

theorem rowsFor_append (k : MsKey) (t1 t2 : List Row) :
    rowsFor k (t1 ++ t2) = rowsFor k t1 ++ rowsFor k t2 :=
  List.filter_append _ _

theorem isLatest_iff {tbl : List Row} {r : Row} :
    isLatest tbl r = true ↔ ∀ b ∈ tbl, msKey b = msKey r → b.modversion ≤ r.modversion := by
  simp only [isLatest, List.all_eq_true]
  constructor
  · intro h b hb hk
    have := h b hb
    rw [if_pos hk] at this
    exact of_decide_eq_true this
  · intro h b hb
    by_cases hk : msKey b = msKey r
    · rw [if_pos hk]
      exact decide_eq_true (h b hb hk)
    · rw [if_neg hk]

theorem mem_latestRows {tbl : List Row} {r : Row} :
    r ∈ latestRows tbl ↔ r ∈ tbl ∧ isLatest tbl r = true := by
  simp [latestRows, List.mem_filter]

theorem exists_maxMod : ∀ (l : List Row), l ≠ [] →
    ∃ r ∈ l, ∀ s ∈ l, s.modversion ≤ r.modversion
  | [], h => absurd rfl h
  | a :: t, _ => by
      by_cases ht : t = []
      · subst ht
        exact ⟨a, List.mem_singleton_self a, by
          intro s hs
          rw [List.mem_singleton] at hs
          subst hs
          exact le_refl _⟩
      · obtain ⟨r, hr, hmax⟩ := exists_maxMod t ht
        by_cases hc : a.modversion ≤ r.modversion
        · exact ⟨r, List.mem_cons_of_mem a hr, by
            intro s hs
            rcases List.mem_cons.mp hs with h | h
            · subst h; exact hc
            · exact hmax s h⟩
        · exact ⟨a, List.mem_cons_self a t, by
            intro s hs
            rcases List.mem_cons.mp hs with h | h
            · subst h; exact le_refl _
            · exact le_trans (hmax s h) (le_of_not_le hc)⟩

/-- A key appears in `query_most_recent_msids_sets` iff some row of the
table carries it: the latest-row subquery never loses a key. -/
theorem mem_msids_sets {tbl : List Row} {k : MsKey} :
    k ∈ query_most_recent_msids_sets tbl ↔ ∃ r ∈ tbl, msKey r = k := by
  simp only [query_most_recent_msids_sets, List.mem_map]
  constructor
  · rintro ⟨r, hr, hk⟩
    rw [mem_orderDMS, mem_latestRows] at hr
    exact ⟨r, hr.1, hk⟩
  · rintro ⟨r, hr, hk⟩
    have hne : rowsFor k tbl ≠ [] := by
      have : r ∈ rowsFor k tbl := by
        simp [rowsFor, List.mem_filter, hr, hk]
      intro hcon
      rw [hcon] at this
      exact absurd this (List.not_mem_nil r)
    obtain ⟨m, hm, hmax⟩ := exists_maxMod _ hne
    simp only [rowsFor, List.mem_filter, decide_eq_true_eq] at hm
    refine ⟨m, ?_, hm.2⟩
    rw [mem_orderDMS, mem_latestRows]
    refine ⟨hm.1, isLatest_iff.2 ?_⟩
    intro b hb hkb
    exact hmax b (by simp [rowsFor, List.mem_filter, hb, hkb, hm.2])

theorem queryCopy_spec {tbl : List Row} {k : MsKey} {r : Row}
    (h : query_all_cols_one_row_to_copy tbl k = some r) :
    r ∈ tbl ∧ msKey r = k ∧ isLatest tbl r = true := by
  have hmem := List.mem_of_mem_head? h
  simp only [List.mem_filter, decide_eq_true_eq] at hmem
  rw [mem_latestRows] at hmem
  exact ⟨hmem.1.1, hmem.2, hmem.1.2⟩

theorem queryCopy_isSome_of_mem {tbl : List Row} {k : MsKey}
    (h : k ∈ query_most_recent_msids_sets tbl) :
    ∃ r, query_all_cols_one_row_to_copy tbl k = some r := by
  simp only [query_most_recent_msids_sets, List.mem_map] at h
  obtain ⟨r, hr, hk⟩ := h
  have hmem : r ∈ (latestRows tbl).filter (fun s => decide (msKey s = k)) := by
    rw [mem_orderDMS] at hr
    simp [List.mem_filter, hr, hk]
  rcases hq : query_all_cols_one_row_to_copy tbl k with _ | s
  · exfalso
    unfold query_all_cols_one_row_to_copy at hq
    rw [List.head?_eq_none_iff] at hq
    rw [hq] at hmem
    exact absurd hmem (List.not_mem_nil r)
  · exact ⟨s, rfl⟩

theorem mem_canonSetDiff {α : Type} [DecidableEq α] {xs ys : List α} {x : α} :
    x ∈ canonSetDiff xs ys ↔ x ∈ xs ∧ x ∉ ys := by
  simp [canonSetDiff, List.mem_dedup, List.mem_filter]

theorem nodup_canonSetDiff {α : Type} [DecidableEq α] (xs ys : List α) :
    (canonSetDiff xs ys).Nodup :=
  List.nodup_dedup _

/-! ### Locating a key's rows in a pass output -/

/-- Filtering a `filterMap` whose results carry the key of their source
element commutes with filtering the sources by key. -/
theorem filter_filterMap_by_key {β : Type} (f : β → Option Row) (key : β → MsKey)
    (hf : ∀ t r, f t = some r → msKey r = key t) :
    ∀ (d : List β) (k : MsKey),
      (d.filterMap f).filter (fun r => decide (msKey r = k)) =
        (d.filter (fun t => decide (key t = k))).filterMap f
  | [], _ => rfl
  | a :: t, k => by
      rcases hfa : f a with _ | r
      · by_cases hk : key a = k <;>
          simp [List.filterMap_cons, hfa, hk, filter_filterMap_by_key f key hf t k,
            List.filter_cons]
      · have hkey := hf a r hfa
        by_cases hk : key a = k
        · simp [List.filterMap_cons, hfa, List.filter_cons, hk, hkey,
            filter_filterMap_by_key f key hf t k]
        · have : ¬ msKey r = k := by rw [hkey]; exact hk
          simp [List.filterMap_cons, hfa, List.filter_cons, hk, this,
            filter_filterMap_by_key f key hf t k]

/-- In a list without duplicates, filtering for one element yields at most
that element. -/
theorem filter_eq_of_nodup {α : Type} [DecidableEq α] :
    ∀ (d : List α), d.Nodup → ∀ k : α,
      d.filter (fun t => decide (t = k)) = if k ∈ d then [k] else []
  | [], _, k => by simp
  | a :: t, hnd, k => by
      rw [List.nodup_cons] at hnd
      by_cases hk : a = k
      · subst hk
        have ha : (decide (a = a)) = true := by simp
        simp only [List.filter_cons, ha, if_pos rfl, List.mem_cons, true_or, if_true]
        rw [filter_eq_of_nodup t hnd.2 a, if_neg hnd.1]
        simp
      · have := filter_eq_of_nodup t hnd.2 k
        simp only [List.filter_cons, decide_eq_true_eq, if_neg hk, List.mem_cons]
        rw [this]
        have : (a = k) = False := by simp [hk]
        simp [hk, Ne.symm hk]

/-- A permutation of a list with at most one element is that list. -/
theorem perm_eq_of_short {α : Type} {l1 l2 : List α} (h : List.Perm l1 l2)
    (hl : l2.length ≤ 1) : l1 = l2 := by
  match l2, hl with
  | [], _ => exact h.eq_nil
  | [x], _ => exact List.perm_singleton.mp h

theorem filterMap_singleton {α β : Type} (f : α → Option β) (a : α) :
    List.filterMap f [a] = (f a).toList := by
  rcases h : f a with _ | b <;> simp [List.filterMap_cons, h]

theorem msKey_deactStamp (v ds : Int) (dt : Str) (r : Row) :
    msKey (deactStamp v ds dt r) = msKey r := rfl

theorem chKey_chTuple (r : Row) : chKey (chTuple r) = msKey r := rfl

theorem mem_disabled_sets {tbl : List Row} {k : MsKey} :
    k ∈ query_most_recent_disabled_msids_sets tbl ↔
      ∃ r ∈ tbl, isLatest tbl r = true ∧ msKey r = k ∧ r.mlmenable = 0 := by
  simp only [query_most_recent_disabled_msids_sets, List.mem_map]
  constructor
  · rintro ⟨r, hr, hk⟩
    rw [mem_orderDMS, List.mem_filter] at hr
    have hl := mem_latestRows.mp hr.1
    exact ⟨r, hl.1, hl.2, hk, of_decide_eq_true hr.2⟩
  · rintro ⟨r, hmem, hlat, hk, hdis⟩
    refine ⟨r, ?_, hk⟩
    rw [mem_orderDMS, List.mem_filter]
    exact ⟨mem_latestRows.mpr ⟨hmem, hlat⟩, by simp [hdis]⟩

/-- Exactly which rows the Added pass emits for a key. -/
theorem rowsFor_addedRows (newT oldT : List Row) (k : MsKey) :
    rowsFor k (addedRows newT oldT) =
      if k ∈ canonSetDiff (query_most_recent_msids_sets newT) (query_most_recent_msids_sets oldT)
      then (query_all_cols_one_row_to_copy newT k).toList else [] := by
  set d := canonSetDiff (query_most_recent_msids_sets newT) (query_most_recent_msids_sets oldT)
    with hd
  have hperm : List.Perm (sortK d) d := sortK_perm d
  have hf : ∀ (t : MsKey) (r : Row),
      query_all_cols_one_row_to_copy newT t = some r → msKey r = t :=
    fun t r h => (queryCopy_spec h).2.1
  have hfm := (hperm.filterMap (fun j => query_all_cols_one_row_to_copy newT j)).filter
    (fun r => decide (msKey r = k))
  have hkey := filter_filterMap_by_key (fun j => query_all_cols_one_row_to_copy newT j)
    (fun j => j) hf d k
  have hnd := filter_eq_of_nodup d (by rw [hd]; exact nodup_canonSetDiff _ _) k
  have hshort : (if k ∈ d then (query_all_cols_one_row_to_copy newT k).toList else []).length
      ≤ 1 := by
    by_cases hm : k ∈ d
    · rw [if_pos hm]
      rcases h : query_all_cols_one_row_to_copy newT k with _ | r <;> simp [h]
    · rw [if_neg hm]
      exact Nat.zero_le 1
  have : rowsFor k (addedRows newT oldT) =
      List.filter (fun r => decide (msKey r = k))
        (List.filterMap (fun j => query_all_cols_one_row_to_copy newT j) (sortK d)) := rfl
  rw [this]
  refine perm_eq_of_short ?_ hshort
  refine hfm.trans ?_
  rw [hkey, hnd]
  by_cases hm : k ∈ d
  · rw [if_pos hm, if_pos hm, filterMap_singleton]
  · rw [if_neg hm, if_neg hm]
    exact List.Perm.refl _

/-- Exactly which rows the Deactivated pass emits for a key. -/
theorem rowsFor_deletedRows (newT oldT : List Row) (v ds : Int) (dt : Str) (k : MsKey) :
    rowsFor k (deletedRows newT oldT v ds dt) =
      if k ∈ canonSetDiff (query_most_recent_msids_sets oldT) (extendedNewKeys newT oldT)
      then ((query_all_cols_one_row_to_copy oldT k).map (deactStamp v ds dt)).toList else [] := by
  set d := canonSetDiff (query_most_recent_msids_sets oldT) (extendedNewKeys newT oldT) with hd
  set f : MsKey → Option Row :=
    fun j => (query_all_cols_one_row_to_copy oldT j).map (deactStamp v ds dt) with hfdef
  have hperm : List.Perm (sortK d) d := sortK_perm d
  have hf : ∀ (t : MsKey) (r : Row), f t = some r → msKey r = t := by
    intro t r h
    rw [hfdef] at h
    rcases hq : query_all_cols_one_row_to_copy oldT t with _ | s
    · simp [hq] at h
    · simp only [hq, Option.map_some'] at h
      rw [← Option.some.inj h, msKey_deactStamp]
      exact (queryCopy_spec hq).2.1
  have hfm := (hperm.filterMap f).filter (fun r => decide (msKey r = k))
  have hkey := filter_filterMap_by_key f (fun j => j) hf d k
  have hnd := filter_eq_of_nodup d (by rw [hd]; exact nodup_canonSetDiff _ _) k
  have hshort : (if k ∈ d then (f k).toList else []).length ≤ 1 := by
    by_cases hm : k ∈ d
    · rw [if_pos hm]
      rcases h : f k with _ | r <;> simp [h]
    · rw [if_neg hm]
      exact Nat.zero_le 1
  have heq : rowsFor k (deletedRows newT oldT v ds dt) =
      List.filter (fun r => decide (msKey r = k)) (List.filterMap f (sortK d)) := rfl
  rw [heq]
  refine (perm_eq_of_short ?_ hshort).trans ?_
  · refine hfm.trans ?_
    rw [hkey, hnd]
    by_cases hm : k ∈ d
    · rw [if_pos hm, if_pos hm, filterMap_singleton]
    · rw [if_neg hm, if_neg hm]
      exact List.Perm.refl _
  · rfl

/-- The rows the Modified pass emits for a key, up to permutation: the
full new rows for the differing tuples with that key. -/
theorem rowsFor_modifiedRows_perm (newT oldT : List Row) (k : MsKey) :
    List.Perm (rowsFor k (modifiedRows newT oldT))
      (((canonSetDiff (query_most_recent_changeable_data newT)
          (query_most_recent_changeable_data oldT)).filter
        (fun t => decide (chKey t = k))).filterMap
          (fun t => query_all_cols_one_row_to_copy newT (chKey t))) := by
  set d := canonSetDiff (query_most_recent_changeable_data newT)
    (query_most_recent_changeable_data oldT) with hd
  set f : ChRow → Option Row := fun t => query_all_cols_one_row_to_copy newT (chKey t)
    with hfdef
  have hperm : List.Perm (sortT d) d := sortT_perm d
  have hf : ∀ (t : ChRow) (r : Row), f t = some r → msKey r = chKey t :=
    fun t r h => (queryCopy_spec h).2.1
  have heq : rowsFor k (modifiedRows newT oldT) =
      List.filter (fun r => decide (msKey r = k)) (List.filterMap f (sortT d)) := rfl
  rw [heq, filter_filterMap_by_key f chKey hf (sortT d) k]
  exact (hperm.filter (fun t => decide (chKey t = k))).filterMap f

theorem mem_chData {tbl : List Row} {t : ChRow} :
    t ∈ query_most_recent_changeable_data tbl ↔
      ∃ r ∈ tbl, isLatest tbl r = true ∧ chTuple r = t := by
  simp only [query_most_recent_changeable_data, List.mem_map]
  constructor
  · rintro ⟨r, hr, ht⟩
    rw [mem_orderDMS, mem_latestRows] at hr
    exact ⟨r, hr.1, hr.2, ht⟩
  · rintro ⟨r, hmem, hlat, ht⟩
    refine ⟨r, ?_, ht⟩
    rw [mem_orderDMS, mem_latestRows]
    exact ⟨hmem, hlat⟩

/-- If a key is absent from the new table, the Modified pass emits no row
for it. -/
theorem rowsFor_modifiedRows_of_not_mem (newT oldT : List Row) (k : MsKey)
    (hnew : k ∉ query_most_recent_msids_sets newT) :
    rowsFor k (modifiedRows newT oldT) = [] := by
  have hperm := rowsFor_modifiedRows_perm newT oldT k
  have hfil : List.filter (fun t => decide (chKey t = k))
      (canonSetDiff (query_most_recent_changeable_data newT)
        (query_most_recent_changeable_data oldT)) = [] := by
    rw [List.filter_eq_nil_iff]
    intro t ht hkt
    rw [mem_canonSetDiff] at ht
    obtain ⟨r, hmem, hlat, hr⟩ := mem_chData.mp ht.1
    apply hnew
    rw [mem_msids_sets]
    refine ⟨r, hmem, ?_⟩
    rw [← chKey_chTuple r, hr]
    exact of_decide_eq_true hkt
  rw [hfil] at hperm
  simp only [List.filterMap_nil] at hperm
  exact hperm.eq_nil

theorem mem_extendedNewKeys {newT oldT : List Row} {k : MsKey} :
    k ∈ extendedNewKeys newT oldT ↔
      k ∈ query_most_recent_msids_sets newT ∨
        (k ∈ query_most_recent_disabled_msids_sets oldT ∧
          k ∉ query_most_recent_msids_sets newT) := by
  simp only [extendedNewKeys, List.mem_append, mem_sortK, mem_canonSetDiff]

/-- **C1.** Deactivated pass of one merge step: a key whose most-recent
store row is enabled (it is current but not current-disabled) and which is
absent from the new revision's key set receives exactly one appended row,
namely the store's latest row for that key with `datesec`, `date` and
`modversion` overwritten by the new revision's values and `mlmenable`
forced to 0; a key whose most-recent store row is already disabled
receives no deactivation row; such an absent key also receives no Added
and no Modified row; and the merge result is always the old table with
rows appended, never a mutation of existing rows. -/
theorem deactivated_pass_spec
    (newT oldT oldTa oldTm : List Row) (v ds : Int) (dt : Str) (k : MsKey)
    (hold : k ∈ query_most_recent_msids_sets oldT)
    (hnew : k ∉ query_most_recent_msids_sets newT) :
    (k ∉ query_most_recent_disabled_msids_sets oldT →
        ∃ r, query_all_cols_one_row_to_copy oldT k = some r ∧
          rowsFor k (deletedRows newT oldT v ds dt) = [deactStamp v ds dt r]) ∧
      (k ∈ query_most_recent_disabled_msids_sets oldT →
        rowsFor k (deletedRows newT oldT v ds dt) = []) ∧
      rowsFor k (addedRows newT oldTa) = [] ∧
      rowsFor k (modifiedRows newT oldTm) = [] ∧
      ∀ c : DiffChoice, ∃ appended,
        mergeTableResultW c newT oldT v ds dt = oldT ++ appended := by
  refine ⟨?_, ?_, ?_, ?_, ?_⟩
  · intro hdis
    have hkd : k ∈ canonSetDiff (query_most_recent_msids_sets oldT)
        (extendedNewKeys newT oldT) := by
      rw [mem_canonSetDiff]
      refine ⟨hold, ?_⟩
      rw [mem_extendedNewKeys]
      rintro (h | ⟨h, _⟩)
      · exact hnew h
      · exact hdis h
    obtain ⟨r, hr⟩ := queryCopy_isSome_of_mem hold
    refine ⟨r, hr, ?_⟩
    rw [rowsFor_deletedRows, if_pos hkd, hr]
    rfl
  · intro hdis
    have hkd : k ∉ canonSetDiff (query_most_recent_msids_sets oldT)
        (extendedNewKeys newT oldT) := by
      rw [mem_canonSetDiff]
      rintro ⟨_, hnotext⟩
      exact hnotext (mem_extendedNewKeys.mpr (Or.inr ⟨hdis, hnew⟩))
    rw [rowsFor_deletedRows, if_neg hkd]
  · have hka : k ∉ canonSetDiff (query_most_recent_msids_sets newT)
        (query_most_recent_msids_sets oldTa) := by
      rw [mem_canonSetDiff]
      rintro ⟨h, _⟩
      exact hnew h
    rw [rowsFor_addedRows, if_neg hka]
  · exact rowsFor_modifiedRows_of_not_mem newT oldTm k hnew
  · intro c
    refine ⟨addedRowsW c newT oldT ++
      deletedRowsW c newT (oldT ++ addedRowsW c newT oldT) v ds dt ++
      modifiedRowsW c newT
        (oldT ++ addedRowsW c newT oldT ++
          deletedRowsW c newT (oldT ++ addedRowsW c newT oldT) v ds dt), ?_⟩
    simp only [mergeTableResultW, mergeTableStepW, List.append_assoc]

/-- Witness for C1: the FOO scenario.  Revision 1 defines `foo` with one
enabled limit set; revision 2 omits it; the merge emits exactly one
deactivated row carrying revision 2's stamps and `mlmenable = 0`, and no
added or modified rows. -/
theorem deactivated_pass_spec_witness :
    rowsFor (sFoo, 0) (deletedRows [] [fooRow] 2 200 sDate2)
        = [deactStamp 2 200 sDate2 fooRow] ∧
      rowsFor (sFoo, 0) (addedRows [] [fooRow]) = [] ∧
      rowsFor (sFoo, 0) (modifiedRows [] [fooRow]) = [] := by
  obtain ⟨h1, h2, h3, h4, h5⟩ :=
    deactivated_pass_spec [] [fooRow] [fooRow] [fooRow] 2 200 sDate2 (sFoo, 0)
      (by decide) (by decide)
  obtain ⟨r, hr, hrows⟩ := h1 (by decide)
  have hq : query_all_cols_one_row_to_copy [fooRow] (sFoo, 0) = some fooRow := by decide
  rw [hq] at hr
  have hfoo : r = fooRow := (Option.some.inj hr).symm
  rw [hfoo] at hrows
  exact ⟨hrows, h3, h4⟩

/-- In a duplicate-free list where every element satisfying `p` equals
`x`, and `x` is a member satisfying `p`, the filter is exactly `[x]`. -/
theorem filter_eq_singleton_of_nodup {α : Type} :
    ∀ (d : List α), d.Nodup → ∀ (p : α → Bool) (x : α), x ∈ d → p x = true →
      (∀ t ∈ d, p t = true → t = x) → d.filter p = [x]
  | [], _, _, x, hx, _, _ => absurd hx (List.not_mem_nil x)
  | a :: t, hnd, p, x, hx, hpx, honly => by
      rw [List.nodup_cons] at hnd
      by_cases hpa : p a = true
      · have hax : a = x := honly a (List.mem_cons_self a t) hpa
        subst hax
        rw [List.filter_cons, if_pos hpa]
        have : t.filter p = [] := by
          rw [List.filter_eq_nil_iff]
          intro b hb hpb
          exact hnd.1 ((honly b (List.mem_cons_of_mem a hb) hpb) ▸ hb)
        rw [this]
      · have hxt : x ∈ t := by
          rcases List.mem_cons.mp hx with h | h
          · subst h; exact absurd hpx hpa
          · exact h
        rw [List.filter_cons, if_neg hpa]
        exact filter_eq_singleton_of_nodup t hnd.2 p x hxt hpx
          (fun b hb hpb => honly b (List.mem_cons_of_mem a hb) hpb)

/-- **C2.** Modified pass of one merge step: for a key current in both the
new revision's table and the store's table (with a unique latest row on
each side), the pass appends a row for that key iff the changeable-column
tuples of the two latest rows differ, and the appended row is the new
revision's full row verbatim (carrying its `modversion`); the pre-existing
store rows for the key are untouched, the pass only appends. -/
theorem modified_pass_spec
    (newT oldT : List Row) (k : MsKey) (rn ro : Row)
    (hqn : query_all_cols_one_row_to_copy newT k = some rn)
    (hqo : query_all_cols_one_row_to_copy oldT k = some ro)
    (hun : ∀ r ∈ latestRows newT, msKey r = k → r = rn)
    (huo : ∀ r ∈ latestRows oldT, msKey r = k → r = ro) :
    rowsFor k (modifiedRows newT oldT)
        = (if chTuple rn = chTuple ro then [] else [rn]) ∧
      rowsFor k (oldT ++ modifiedRows newT oldT)
        = rowsFor k oldT ++ rowsFor k (modifiedRows newT oldT) := by
  have hrn := queryCopy_spec hqn
  have hro := queryCopy_spec hqo
  have hrnlat : rn ∈ latestRows newT := mem_latestRows.mpr ⟨hrn.1, hrn.2.2⟩
  have hrolat : ro ∈ latestRows oldT := mem_latestRows.mpr ⟨hro.1, hro.2.2⟩
  have hkeyn : msKey rn = k := hrn.2.1
  have hkeyo : msKey ro = k := hro.2.1
  -- tuples of the new view carrying key k are exactly `chTuple rn`
  have hnewk : ∀ t ∈ query_most_recent_changeable_data newT, chKey t = k → t = chTuple rn := by
    intro t ht hkt
    obtain ⟨r, hrm, hrl, hrt⟩ := mem_chData.mp ht
    have : msKey r = k := by rw [← chKey_chTuple r, hrt]; exact hkt
    rw [← hrt, hun r (mem_latestRows.mpr ⟨hrm, hrl⟩) this]
  have holdk : ∀ t ∈ query_most_recent_changeable_data oldT, chKey t = k → t = chTuple ro := by
    intro t ht hkt
    obtain ⟨r, hrm, hrl, hrt⟩ := mem_chData.mp ht
    have : msKey r = k := by rw [← chKey_chTuple r, hrt]; exact hkt
    rw [← hrt, huo r (mem_latestRows.mpr ⟨hrm, hrl⟩) this]
  have hmemn : chTuple rn ∈ query_most_recent_changeable_data newT :=
    mem_chData.mpr ⟨rn, hrn.1, hrn.2.2, rfl⟩
  have hmemo : chTuple ro ∈ query_most_recent_changeable_data oldT :=
    mem_chData.mpr ⟨ro, hro.1, hro.2.2, rfl⟩
  have hperm := rowsFor_modifiedRows_perm newT oldT k
  set d := canonSetDiff (query_most_recent_changeable_data newT)
    (query_most_recent_changeable_data oldT) with hd
  refine ⟨?_, rowsFor_append k oldT (modifiedRows newT oldT)⟩
  by_cases he : chTuple rn = chTuple ro
  · rw [if_pos he]
    have hfil : d.filter (fun t => decide (chKey t = k)) = [] := by
      rw [List.filter_eq_nil_iff]
      intro t ht hkt
      rw [hd, mem_canonSetDiff] at ht
      have := hnewk t ht.1 (of_decide_eq_true hkt)
      subst this
      exact ht.2 (he ▸ hmemo)
    rw [hfil] at hperm
    simp only [List.filterMap_nil] at hperm
    exact hperm.eq_nil
  · rw [if_neg he]
    have hmemd : chTuple rn ∈ d := by
      rw [hd, mem_canonSetDiff]
      refine ⟨hmemn, ?_⟩
      intro hin
      exact he (holdk _ hin (chKey_chTuple rn ▸ hkeyn))
    have hfil : d.filter (fun t => decide (chKey t = k)) = [chTuple rn] := by
      refine filter_eq_singleton_of_nodup d (hd ▸ nodup_canonSetDiff _ _) _ _ hmemd ?_ ?_
      · exact decide_eq_true (chKey_chTuple rn ▸ hkeyn)
      · intro t ht hpt
        rw [hd, mem_canonSetDiff] at ht
        exact hnewk t ht.1 (of_decide_eq_true hpt)
    rw [hfil] at hperm
    have : List.filterMap (fun t => query_all_cols_one_row_to_copy newT (chKey t))
        [chTuple rn] = [rn] := by
      rw [filterMap_singleton, chKey_chTuple, hkeyn, hqn]
      rfl
    rw [this] at hperm
    exact perm_eq_of_short hperm (by simp)

/-- Witness for C2: the BAR scenario.  Revision 1 stores BAR with
`caution_high = 10`; revision 2 redeclares it with `caution_high = 12`:
exactly one modified row is appended — revision 2's full row — and the
revision-1 row stays in place. -/
theorem modified_pass_spec_witness :
    rowsFor (sBar, 0) (modifiedRows [barRowV2] [barRowV1]) = [barRowV2] ∧
      rowsFor (sBar, 0) ([barRowV1] ++ modifiedRows [barRowV2] [barRowV1])
        = [barRowV1] ++ rowsFor (sBar, 0) (modifiedRows [barRowV2] [barRowV1]) := by
  obtain ⟨h1, h2⟩ :=
    modified_pass_spec [barRowV2] [barRowV1] (sBar, 0) barRowV2 barRowV1
      (by decide) (by decide) (by decide) (by decide)
  have hne : chTuple barRowV2 ≠ chTuple barRowV1 := by decide
  rw [if_neg hne] at h1
  refine ⟨h1, ?_⟩
  rw [h2]
  have : rowsFor (sBar, 0) [barRowV1] = [barRowV1] := by decide
  rw [this]

theorem mem_addedRows_iff {newT oldT : List Row} {r : Row} :
    r ∈ addedRows newT oldT ↔
      ∃ k ∈ canonSetDiff (query_most_recent_msids_sets newT)
          (query_most_recent_msids_sets oldT),
        query_all_cols_one_row_to_copy newT k = some r := by
  simp only [addedRows, addedRowsW, canonChoice, List.mem_filterMap, mem_sortK]

theorem mem_deletedRows_iff {newT oldT : List Row} {v ds : Int} {dt : Str} {r : Row} :
    r ∈ deletedRows newT oldT v ds dt ↔
      ∃ k ∈ canonSetDiff (query_most_recent_msids_sets oldT) (extendedNewKeys newT oldT),
        (query_all_cols_one_row_to_copy oldT k).map (deactStamp v ds dt) = some r := by
  simp only [deletedRows, deletedRowsW, canonChoice, List.mem_filterMap, mem_sortK,
    extendedNewKeys]

theorem mem_modifiedRows_iff {newT oldT : List Row} {r : Row} :
    r ∈ modifiedRows newT oldT ↔
      ∃ t ∈ canonSetDiff (query_most_recent_changeable_data newT)
          (query_most_recent_changeable_data oldT),
        query_all_cols_one_row_to_copy newT (chKey t) = some r := by
  simp only [modifiedRows, modifiedRowsW, canonChoice, List.mem_filterMap, (sortT_perm _).mem_iff]

/-- A row emitted by the Added pass: its key is current in the new table,
absent from the old one, and the row is the new table's latest row for it. -/
theorem addedRows_key {newT oldT : List Row} {r : Row} (h : r ∈ addedRows newT oldT) :
    msKey r ∈ query_most_recent_msids_sets newT ∧
      msKey r ∉ query_most_recent_msids_sets oldT ∧
      query_all_cols_one_row_to_copy newT (msKey r) = some r := by
  obtain ⟨k, hk, hq⟩ := mem_addedRows_iff.mp h
  have hkey : msKey r = k := (queryCopy_spec hq).2.1
  rw [mem_canonSetDiff] at hk
  exact ⟨hkey ▸ hk.1, hkey ▸ hk.2, hkey ▸ hq⟩

/-- A row emitted by the Deactivated pass keys a pair absent from the new
table. -/
theorem deletedRows_key {newT oldT : List Row} {v ds : Int} {dt : Str} {r : Row}
    (h : r ∈ deletedRows newT oldT v ds dt) :
    msKey r ∉ query_most_recent_msids_sets newT := by
  obtain ⟨k, hk, hq⟩ := mem_deletedRows_iff.mp h
  rcases hq0 : query_all_cols_one_row_to_copy oldT k with _ | s
  · rw [hq0] at hq
    exact absurd hq (by simp)
  · rw [hq0] at hq
    simp only [Option.map_some'] at hq
    have hkey : msKey r = k := by
      rw [← Option.some.inj hq, msKey_deactStamp]
      exact (queryCopy_spec hq0).2.1
    rw [mem_canonSetDiff] at hk
    intro hmem
    exact hk.2 (List.mem_append.mpr (Or.inl (hkey ▸ hmem)))

/-- A row emitted by the Modified pass: its key is current in the new
table and the row is the new table's latest row for it. -/
theorem modifiedRows_key {newT oldT : List Row} {r : Row} (h : r ∈ modifiedRows newT oldT) :
    msKey r ∈ query_most_recent_msids_sets newT ∧
      query_all_cols_one_row_to_copy newT (msKey r) = some r := by
  obtain ⟨t, ht, hq⟩ := mem_modifiedRows_iff.mp h
  have hkey : msKey r = chKey t := (queryCopy_spec hq).2.1
  rw [mem_canonSetDiff] at ht
  obtain ⟨s, hsm, hsl, hst⟩ := mem_chData.mp ht.1
  have : chKey t = msKey s := by rw [← hst, chKey_chTuple]
  refine ⟨?_, hkey ▸ hq⟩
  rw [hkey, this]
  exact mem_msids_sets.mpr ⟨s, hsm, rfl⟩

/-- **C3.** Within one merge step on one table (passes run in order
added, deactivated, modified, each committed before the next), the three
emitted row batches are pairwise disjoint on `(msid, setkey)` keys. -/
theorem merge_passes_disjoint (newT oldT : List Row) (v ds : Int) (dt : Str)
    (hN : ∀ r ∈ latestRows newT, ∀ s ∈ latestRows newT, msKey r = msKey s → r = s) :
    (∀ r ∈ (mergeTableStep newT oldT v ds dt).1,
        ∀ s ∈ (mergeTableStep newT oldT v ds dt).2.1, msKey r ≠ msKey s) ∧
      (∀ r ∈ (mergeTableStep newT oldT v ds dt).1,
        ∀ s ∈ (mergeTableStep newT oldT v ds dt).2.2, msKey r ≠ msKey s) ∧
      (∀ r ∈ (mergeTableStep newT oldT v ds dt).2.1,
        ∀ s ∈ (mergeTableStep newT oldT v ds dt).2.2, msKey r ≠ msKey s) := by
  have hstep1 : (mergeTableStep newT oldT v ds dt).1 = addedRows newT oldT := rfl
  have hstep2 : (mergeTableStep newT oldT v ds dt).2.1 =
      deletedRows newT (oldT ++ addedRows newT oldT) v ds dt := rfl
  have hstep3 : (mergeTableStep newT oldT v ds dt).2.2 =
      modifiedRows newT
        (oldT ++ addedRows newT oldT ++
          deletedRows newT (oldT ++ addedRows newT oldT) v ds dt) := rfl
  rw [hstep1, hstep2, hstep3]
  set a := addedRows newT oldT with ha
  set d := deletedRows newT (oldT ++ a) v ds dt with hdd
  set o2 := oldT ++ a ++ d with ho2
  refine ⟨?_, ?_, ?_⟩
  · intro r hr s hs heq
    exact deletedRows_key hs (heq ▸ (addedRows_key hr).1)
  · -- a row added for a fresh key is the current row of the merged table,
    -- so its changeable tuple is present and the Modified pass skips it
    intro r hr s hs heq
    obtain ⟨hnewp, holdp, hqr⟩ := addedRows_key hr
    obtain ⟨t, ht, hq⟩ := mem_modifiedRows_iff.mp hs
    have hkey : msKey s = chKey t := (queryCopy_spec hq).2.1
    have hktr : chKey t = msKey r := by rw [← hkey, ← heq]
    rw [mem_canonSetDiff] at ht
    -- the differing tuple with this key is the added row's tuple
    have htr : t = chTuple r := by
      obtain ⟨w, hwm, hwl, hwt⟩ := mem_chData.mp ht.1
      have hwk : msKey w = msKey r := by rw [← chKey_chTuple w, hwt, hktr]
      have hrl : r ∈ latestRows newT :=
        mem_latestRows.mpr ⟨(queryCopy_spec hqr).1, (queryCopy_spec hqr).2.2⟩
      rw [← hwt, hN w (mem_latestRows.mpr ⟨hwm, hwl⟩) r hrl hwk]
    -- but that tuple is current in the merged table
    have hro2 : r ∈ o2 := by
      rw [ho2]
      exact List.mem_append.mpr (Or.inl (List.mem_append.mpr (Or.inr hr)))
    have hlat : isLatest o2 r = true := by
      rw [isLatest_iff]
      intro b hb hkb
      rw [ho2] at hb
      rcases List.mem_append.mp hb with hb | hb
      · rcases List.mem_append.mp hb with hb | hb
        · exact absurd (mem_msids_sets.mpr ⟨b, hb, hkb⟩) (hkb ▸ holdp)
        · have hqb := (addedRows_key hb).2.2
          rw [hkb] at hqb
          rw [Option.some.inj (hqb.symm.trans hqr)]
      · exact absurd (hkb ▸ (hkb ▸ hnewp)) (deletedRows_key hb)
    exact ht.2 (htr ▸ mem_chData.mpr ⟨r, hro2, hlat, rfl⟩)
  · intro r hr s hs heq
    exact deletedRows_key hr (heq ▸ (modifiedRows_key hs).1)

/-- Witness for C3: a two-entity store where one entity is deactivated and
the other modified — the three batches touch disjoint keys. -/
theorem merge_passes_disjoint_witness :
    (∀ r ∈ latestRows [barRowV2], ∀ s ∈ latestRows [barRowV2], msKey r = msKey s → r = s) ∧
      (∀ r ∈ (mergeTableStep [barRowV2] [fooRow, barRowV1] 2 200 sDate2).1,
          ∀ s ∈ (mergeTableStep [barRowV2] [fooRow, barRowV1] 2 200 sDate2).2.1,
            msKey r ≠ msKey s) ∧
      (∀ r ∈ (mergeTableStep [barRowV2] [fooRow, barRowV1] 2 200 sDate2).1,
          ∀ s ∈ (mergeTableStep [barRowV2] [fooRow, barRowV1] 2 200 sDate2).2.2,
            msKey r ≠ msKey s) ∧
      (∀ r ∈ (mergeTableStep [barRowV2] [fooRow, barRowV1] 2 200 sDate2).2.1,
          ∀ s ∈ (mergeTableStep [barRowV2] [fooRow, barRowV1] 2 200 sDate2).2.2,
            msKey r ≠ msKey s) := by
  refine ⟨by decide, ?_⟩
  exact merge_passes_disjoint [barRowV2] [fooRow, barRowV1] 2 200 sDate2 (by decide)

/-- Emission through `chKey` only depends on the sorted key sequence, so
two enumerations of the same tuple set emit identical row lists. -/
theorem filterMap_sortT_eq_of_perm {l1 l2 : List ChRow} (h : List.Perm l1 l2)
    (g : MsKey → Option Row) :
    (sortT l1).filterMap (fun t => g (chKey t))
      = (sortT l2).filterMap (fun t => g (chKey t)) := by
  have h1 : (sortT l1).filterMap (fun t => g (chKey t))
      = ((sortT l1).map chKey).filterMap g := by
    rw [List.filterMap_map]
    rfl
  have h2 : (sortT l2).filterMap (fun t => g (chKey t))
      = ((sortT l2).map chKey).filterMap g := by
    rw [List.filterMap_map]
    rfl
  rw [h1, h2, sortT_map_chKey_eq_of_perm h]

theorem addedRowsW_valid {c : DiffChoice} (hc : ValidChoice c) (newT oldT : List Row) :
    addedRowsW c newT oldT = addedRows newT oldT := by
  simp only [addedRowsW, addedRows, canonChoice]
  rw [sortK_eq_of_perm (hc.1 _ _)]

theorem deletedRowsW_valid {c : DiffChoice} (hc : ValidChoice c) (newT oldT : List Row)
    (v ds : Int) (dt : Str) :
    deletedRowsW c newT oldT v ds dt = deletedRows newT oldT v ds dt := by
  simp only [deletedRowsW, deletedRows, canonChoice]
  rw [sortK_eq_of_perm (hc.1 (query_most_recent_disabled_msids_sets oldT)
    (query_most_recent_msids_sets newT))]
  rw [sortK_eq_of_perm (hc.1 (query_most_recent_msids_sets oldT) _)]

theorem modifiedRowsW_valid {c : DiffChoice} (hc : ValidChoice c) (newT oldT : List Row) :
    modifiedRowsW c newT oldT = modifiedRows newT oldT := by
  simp only [modifiedRowsW, modifiedRows, canonChoice]
  exact filterMap_sortT_eq_of_perm
    ((hc.2 _ _).trans (List.Perm.refl _)) (query_all_cols_one_row_to_copy newT)

theorem mergeTableResultW_valid {c : DiffChoice} (hc : ValidChoice c)
    (newT oldT : List Row) (v ds : Int) (dt : Str) :
    mergeTableResultW c newT oldT v ds dt = mergeTableResultW canonChoice newT oldT v ds dt := by
  simp only [mergeTableResultW, mergeTableStepW]
  rw [addedRowsW_valid hc, deletedRowsW_valid hc, modifiedRowsW_valid hc]
  rfl

theorem mergeStepW_valid {c : DiffChoice} (hc : ValidChoice c) (new : RevDB) (old : StoreDB) :
    mergeStepW c new old = mergeStep new old := by
  simp only [mergeStepW, mergeStep]
  rw [mergeTableResultW_valid hc, mergeTableResultW_valid hc]

theorem rebuildW_valid {c : DiffChoice} (hc : ValidChoice c) :
    ∀ (inputs : List RevDB) (s0 : StoreDB), rebuildW c inputs s0 = rebuild inputs s0
  | [], _ => rfl
  | x :: t, s0 => by
      show List.foldlM (fun s r => mergeStepW c r s) s0 (x :: t)
        = List.foldlM (fun s r => mergeStepW canonChoice r s) s0 (x :: t)
      rw [List.foldlM_cons, List.foldlM_cons, mergeStepW_valid hc,
        mergeStepW_valid (c := canonChoice) ⟨fun _ _ => List.Perm.refl _,
          fun _ _ => List.Perm.refl _⟩]
      rcases h : mergeStep x s0 with e | s1
      · rfl
      · exact rebuildW_valid hc t s1

/-- **C4.** Determinism of rebuilds: two rebuild runs from the same
ordered revision inputs, differing only in the iteration order their
`set(...)` differences are enumerated in, produce the same store and in
particular identical per-table fingerprint data (the serialized ordered
rows whose sha256 is recorded) — because every diff pass sorts its
working set by `(msid, setkey)` before emitting and the fingerprint
queries order rows by `(datesec, msid, setkey)` (resp. `(datesec,
version)`), not by set-iteration order. -/
theorem rebuild_deterministic (c1 c2 : DiffChoice) (h1 : ValidChoice c1)
    (h2 : ValidChoice c2) (inputs : List RevDB) (s0 : StoreDB) :
    rebuildW c1 inputs s0 = rebuildW c2 inputs s0 ∧
      Except.map fingerprintData (rebuildW c1 inputs s0)
        = Except.map fingerprintData (rebuildW c2 inputs s0) := by
  have he : rebuildW c1 inputs s0 = rebuildW c2 inputs s0 := by
    rw [rebuildW_valid h1, rebuildW_valid h2]
  exact ⟨he, by rw [he]⟩

/-- Witness for C4: enumerating every set difference in canonical order
versus reversed order yields the same rebuilt store and fingerprints. -/
theorem rebuild_deterministic_witness :
    ValidChoice canonChoice ∧ ValidChoice revChoice ∧
      rebuildW canonChoice [revFoo] store0 = rebuildW revChoice [revFoo] store0 ∧
      Except.map fingerprintData (rebuildW canonChoice [revFoo] store0)
        = Except.map fingerprintData (rebuildW revChoice [revFoo] store0) := by
  have hc1 : ValidChoice canonChoice :=
    ⟨fun _ _ => List.Perm.refl _, fun _ _ => List.Perm.refl _⟩
  have hc2 : ValidChoice revChoice :=
    ⟨fun _ _ => List.reverse_perm _, fun _ _ => List.reverse_perm _⟩
  exact ⟨hc1, hc2, rebuild_deterministic canonChoice revChoice hc1 hc2 [revFoo] store0⟩

/-- Counterexample to C8: revision 1000 does not resolve — the `if/elif`
chain of `get_tdb` ends at `revision <= 999` with no `else`, so the
lookup fails (`UnboundLocalError`) instead of resolving to the newest
snapshot. -/
theorem get_tdb_total_counterexample : get_tdb 1000 = none := by decide

set_option maxHeartbeats 1000000 in
/-- **C8 (amended).** Reference-snapshot resolution is total and
single-valued for every revision number up to 999: the ranges are
contiguous and non-overlapping and each revision resolves to exactly one
snapshot identifier; but the highest range is not open-ended — every
revision above 999 fails to resolve. -/
theorem get_tdb_ranges (r : Int) :
    (r ≤ 999 → ∃ s, get_tdb r = some s) ∧ (999 < r → get_tdb r = none) := by
  constructor
  · intro h
    unfold get_tdb
    split_ifs <;> first | exact ⟨_, rfl⟩ | (exfalso; omega)
  · intro h
    unfold get_tdb
    split_ifs <;> first | rfl | (exfalso; omega)

/-- Witness for C8: revision 50 resolves, revision 1000 does not. -/
theorem get_tdb_ranges_witness :
    (∃ s, get_tdb 50 = some s) ∧ get_tdb 1000 = none :=
  ⟨(get_tdb_ranges 50).1 (by decide), (get_tdb_ranges 1000).2 (by decide)⟩

theorem mem_rowsFor {k : MsKey} {tbl : List Row} {r : Row} :
    r ∈ rowsFor k tbl ↔ r ∈ tbl ∧ msKey r = k := by
  simp [rowsFor, List.mem_filter]

theorem canonSetDiff_eq_nil {α : Type} [DecidableEq α] {xs ys : List α}
    (h : ∀ x ∈ xs, x ∈ ys) : canonSetDiff xs ys = [] := by
  unfold canonSetDiff
  have : xs.filter (fun x => decide (x ∉ ys)) = [] := by
    rw [List.filter_eq_nil_iff]
    intro a ha hd
    exact (of_decide_eq_true hd) (h a ha)
  rw [this]
  rfl

theorem addedRows_eq_nil {newT oldT : List Row}
    (h : ∀ k ∈ query_most_recent_msids_sets newT, k ∈ query_most_recent_msids_sets oldT) :
    addedRows newT oldT = [] := by
  simp only [addedRows, addedRowsW, canonChoice]
  rw [canonSetDiff_eq_nil h]
  rfl

theorem deletedRows_eq_nil {newT oldT : List Row} {v ds : Int} {dt : Str}
    (h : ∀ k ∈ query_most_recent_msids_sets oldT, k ∈ extendedNewKeys newT oldT) :
    deletedRows newT oldT v ds dt = [] := by
  simp only [deletedRows, deletedRowsW, canonChoice]
  rw [show (query_most_recent_msids_sets newT ++
      sortK (canonSetDiff (query_most_recent_disabled_msids_sets oldT)
        (query_most_recent_msids_sets newT))) = extendedNewKeys newT oldT from rfl]
  rw [canonSetDiff_eq_nil h]
  rfl

theorem modifiedRows_eq_nil {newT oldT : List Row}
    (h : ∀ t ∈ query_most_recent_changeable_data newT,
      t ∈ query_most_recent_changeable_data oldT) :
    modifiedRows newT oldT = [] := by
  simp only [modifiedRows, modifiedRowsW, canonChoice]
  rw [canonSetDiff_eq_nil h]
  rfl

/-- The Modified pass output for a key with a unique latest new row: empty
when that row's changeable tuple is already current in the old table,
otherwise exactly the new row. -/
theorem rowsFor_modifiedRows_unique (newT oldT : List Row) (k : MsKey) (rn : Row)
    (hqn : query_all_cols_one_row_to_copy newT k = some rn)
    (hN : uniqLatest newT) :
    rowsFor k (modifiedRows newT oldT)
      = if chTuple rn ∈ query_most_recent_changeable_data oldT then [] else [rn] := by
  have hrn := queryCopy_spec hqn
  have hrnlat : rn ∈ latestRows newT := mem_latestRows.mpr ⟨hrn.1, hrn.2.2⟩
  have hkeyn : msKey rn = k := hrn.2.1
  have hnewk : ∀ t ∈ query_most_recent_changeable_data newT, chKey t = k → t = chTuple rn := by
    intro t ht hkt
    obtain ⟨r, hrm, hrl, hrt⟩ := mem_chData.mp ht
    have : msKey r = k := by rw [← chKey_chTuple r, hrt]; exact hkt
    rw [← hrt, hN r (mem_latestRows.mpr ⟨hrm, hrl⟩) rn hrnlat (this.trans hkeyn.symm)]
  have hperm := rowsFor_modifiedRows_perm newT oldT k
  set d := canonSetDiff (query_most_recent_changeable_data newT)
    (query_most_recent_changeable_data oldT) with hd
  by_cases hmem : chTuple rn ∈ query_most_recent_changeable_data oldT
  · rw [if_pos hmem]
    have hfil : d.filter (fun t => decide (chKey t = k)) = [] := by
      rw [List.filter_eq_nil_iff]
      intro t ht hkt
      rw [hd, mem_canonSetDiff] at ht
      have := hnewk t ht.1 (of_decide_eq_true hkt)
      subst this
      exact ht.2 hmem
    rw [hfil] at hperm
    simp only [List.filterMap_nil] at hperm
    exact hperm.eq_nil
  · rw [if_neg hmem]
    have hmemd : chTuple rn ∈ d := by
      rw [hd, mem_canonSetDiff]
      exact ⟨mem_chData.mpr ⟨rn, hrn.1, hrn.2.2, rfl⟩, hmem⟩
    have hfil : d.filter (fun t => decide (chKey t = k)) = [chTuple rn] := by
      refine filter_eq_singleton_of_nodup d (hd ▸ nodup_canonSetDiff _ _) _ _ hmemd ?_ ?_
      · exact decide_eq_true (chKey_chTuple rn ▸ hkeyn)
      · intro t ht hpt
        rw [hd, mem_canonSetDiff] at ht
        exact hnewk t ht.1 (of_decide_eq_true hpt)
    rw [hfil] at hperm
    have hfm : List.filterMap (fun t => query_all_cols_one_row_to_copy newT (chKey t))
        [chTuple rn] = [rn] := by
      rw [filterMap_singleton, chKey_chTuple, hkeyn, hqn]
      rfl
    rw [hfm] at hperm
    exact perm_eq_of_short hperm (by simp)

theorem deactStamp_modversion (v ds : Int) (dt : Str) (r : Row) :
    (deactStamp v ds dt r).modversion = v := rfl

theorem deactStamp_mlmenable (v ds : Int) (dt : Str) (r : Row) :
    (deactStamp v ds dt r).mlmenable = 0 := rfl

theorem insertVersion_append_self (vs : List VersionRow) (v : VersionRow) :
    insertVersion (vs ++ [v]) v = none := by
  unfold insertVersion
  rw [if_pos]
  refine List.any_eq_true.mpr ⟨v, by simp, by simp⟩

theorem rowsFor_eq_nil {k : MsKey} {tbl : List Row} (h : ∀ b ∈ tbl, msKey b ≠ k) :
    rowsFor k tbl = [] := by
  simp only [rowsFor, List.filter_eq_nil_iff]
  intro b hb hd
  exact h b hb (of_decide_eq_true hd)

/-- After merging a strictly newer revision table, re-running the three
passes against the merged table emits nothing: every new key is current,
every current key missing from the revision is most-recently-disabled,
and every new changeable tuple is already current. -/
theorem second_pass_empty (newT oldT : List Row) (v ds : Int) (dt : Str)
    (hN : uniqLatest newT)
    (hvn : ∀ r ∈ newT, r.modversion = v)
    (hvo : ∀ r ∈ oldT, r.modversion < v) :
    addedRows newT (mergeTableResultW canonChoice newT oldT v ds dt) = [] ∧
      deletedRows newT (mergeTableResultW canonChoice newT oldT v ds dt) v ds dt = [] ∧
      modifiedRows newT (mergeTableResultW canonChoice newT oldT v ds dt) = [] := by
  set a := addedRows newT oldT with hadef
  set o1 := oldT ++ a with ho1
  set d := deletedRows newT o1 v ds dt with hddef
  set o2 := o1 ++ d with ho2
  set m := modifiedRows newT o2 with hmdef
  have hL : mergeTableResultW canonChoice newT oldT v ds dt = oldT ++ a ++ d ++ m := rfl
  rw [hL]
  set L := oldT ++ a ++ d ++ m with hLdef
  have hmemL : ∀ b : Row, b ∈ L ↔ b ∈ oldT ∨ b ∈ a ∨ b ∈ d ∨ b ∈ m := by
    intro b
    rw [hLdef]
    simp [List.mem_append, or_assoc]
  refine ⟨addedRows_eq_nil ?_, deletedRows_eq_nil ?_, modifiedRows_eq_nil ?_⟩
  · -- every new key is a key of the merged table
    intro k hk
    by_cases hko : k ∈ query_most_recent_msids_sets oldT
    · obtain ⟨r, hr, hkr⟩ := mem_msids_sets.mp hko
      exact mem_msids_sets.mpr ⟨r, (hmemL r).mpr (Or.inl hr), hkr⟩
    · obtain ⟨ra, hra⟩ := queryCopy_isSome_of_mem hk
      have hmem_a : ra ∈ a := mem_addedRows_iff.mpr ⟨k, mem_canonSetDiff.mpr ⟨hk, hko⟩, hra⟩
      exact mem_msids_sets.mpr
        ⟨ra, (hmemL ra).mpr (Or.inr (Or.inl hmem_a)), (queryCopy_spec hra).2.1⟩
  · -- every key of the merged table is current in the revision or
    -- most-recently disabled
    intro k hkL
    rw [mem_extendedNewKeys]
    by_cases hkn : k ∈ query_most_recent_msids_sets newT
    · exact Or.inl hkn
    right
    refine ⟨?_, hkn⟩
    have hfa : rowsFor k a = [] :=
      rowsFor_eq_nil (fun b hb hkb => hkn (hkb ▸ (addedRows_key hb).1))
    have hfm : rowsFor k m = [] :=
      rowsFor_eq_nil (fun b hb hkb => hkn (hkb ▸ (modifiedRows_key hb).1))
    by_cases hdiff : k ∈ canonSetDiff (query_most_recent_msids_sets o1)
        (extendedNewKeys newT o1)
    · have hko1 : k ∈ query_most_recent_msids_sets o1 := (mem_canonSetDiff.mp hdiff).1
      obtain ⟨ro, hro⟩ := queryCopy_isSome_of_mem hko1
      have hfd : rowsFor k d = [deactStamp v ds dt ro] := by
        rw [hddef, rowsFor_deletedRows, if_pos hdiff, hro]
        rfl
      have hrdd : deactStamp v ds dt ro ∈ d :=
        (mem_rowsFor.mp (hfd ▸ List.mem_singleton_self (deactStamp v ds dt ro))).1
      have hkrd : msKey (deactStamp v ds dt ro) = k := by
        rw [msKey_deactStamp]
        exact (queryCopy_spec hro).2.1
      refine mem_disabled_sets.mpr
        ⟨deactStamp v ds dt ro, (hmemL _).mpr (Or.inr (Or.inr (Or.inl hrdd))), ?_, hkrd, rfl⟩
      rw [isLatest_iff]
      intro b hb hkb
      have hbk : msKey b = k := hkb.trans hkrd
      rcases (hmemL b).mp hb with hbo | hba | hbd | hbm
      · rw [deactStamp_modversion]
        exact le_of_lt (hvo b hbo)
      · exact absurd (hbk ▸ (addedRows_key hba).1) hkn
      · have hbin : b ∈ rowsFor k d := mem_rowsFor.mpr ⟨hbd, hbk⟩
        rw [hfd] at hbin
        rw [List.mem_singleton.mp hbin]
      · exact absurd (hbk ▸ (modifiedRows_key hbm).1) hkn
    · have hfd : rowsFor k d = [] := by
        rw [hddef, rowsFor_deletedRows, if_neg hdiff]
      obtain ⟨r0, hr0L, hkr0⟩ := mem_msids_sets.mp hkL
      have hr0old : r0 ∈ oldT := by
        rcases (hmemL r0).mp hr0L with h | h | h | h
        · exact h
        · exact absurd (hkr0 ▸ (addedRows_key h).1) hkn
        · exact absurd (mem_rowsFor.mpr ⟨h, hkr0⟩) (by rw [hfd]; exact List.not_mem_nil _)
        · exact absurd (hkr0 ▸ (modifiedRows_key h).1) hkn
      have hko1 : k ∈ query_most_recent_msids_sets o1 :=
        mem_msids_sets.mpr ⟨r0, List.mem_append.mpr (Or.inl hr0old), hkr0⟩
      have hext : k ∈ extendedNewKeys newT o1 := by
        by_contra hnot
        exact hdiff (mem_canonSetDiff.mpr ⟨hko1, hnot⟩)
      rw [mem_extendedNewKeys] at hext
      rcases hext with h | ⟨hdis, _⟩
      · exact absurd h hkn
      obtain ⟨ro, hro1, hlat1, hkro, hdis0⟩ := mem_disabled_sets.mp hdis
      have hroold : ro ∈ oldT := by
        rcases List.mem_append.mp hro1 with h | h
        · exact h
        · exact absurd (hkro ▸ (addedRows_key h).1) hkn
      refine mem_disabled_sets.mpr ⟨ro, (hmemL ro).mpr (Or.inl hroold), ?_, hkro, hdis0⟩
      rw [isLatest_iff]
      intro b hb hkb
      have hbk : msKey b = k := hkb.trans hkro
      rcases (hmemL b).mp hb with hbo | hba | hbd | hbm
      · exact (isLatest_iff.mp hlat1) b (List.mem_append.mpr (Or.inl hbo)) hkb
      · exact absurd (hbk ▸ (addedRows_key hba).1) hkn
      · exact absurd (mem_rowsFor.mpr ⟨hbd, hbk⟩) (by rw [hfd]; exact List.not_mem_nil _)
      · exact absurd (hbk ▸ (modifiedRows_key hbm).1) hkn
  · -- every new changeable tuple is current in the merged table
    intro t ht
    obtain ⟨rn, hrnm, hrnl, hrnt⟩ := mem_chData.mp ht
    have hkn : msKey rn ∈ query_most_recent_msids_sets newT :=
      mem_msids_sets.mpr ⟨rn, hrnm, rfl⟩
    obtain ⟨rq, hrq⟩ := queryCopy_isSome_of_mem hkn
    have hrq_eq : rq = rn := by
      have h1 := queryCopy_spec hrq
      exact hN rq (mem_latestRows.mpr ⟨h1.1, h1.2.2⟩) rn
        (mem_latestRows.mpr ⟨hrnm, hrnl⟩) h1.2.1
    rw [hrq_eq] at hrq
    have hnotdiff : msKey rn ∉ canonSetDiff (query_most_recent_msids_sets o1)
        (extendedNewKeys newT o1) := by
      rw [mem_canonSetDiff]
      rintro ⟨_, hnot⟩
      exact hnot (mem_extendedNewKeys.mpr (Or.inl hkn))
    have hfd : rowsFor (msKey rn) d = [] := by
      rw [hddef, rowsFor_deletedRows, if_neg hnotdiff]
    have hrvn : rn.modversion = v := hvn rn hrnm
    rw [← hrnt]
    by_cases hko : msKey rn ∈ query_most_recent_msids_sets oldT
    · have hfa : rowsFor (msKey rn) a = [] :=
        rowsFor_eq_nil (fun b hb hkb => ((addedRows_key hb).2.1) (hkb ▸ hko))
      have hfm := rowsFor_modifiedRows_unique newT o2 (msKey rn) rn hrq hN
      by_cases hmem2 : chTuple rn ∈ query_most_recent_changeable_data o2
      · obtain ⟨w, hwo2, hwlat, hwt⟩ := mem_chData.mp hmem2
        have hwk : msKey w = msKey rn := by
          rw [← chKey_chTuple w, hwt, chKey_chTuple]
        have hfm0 : rowsFor (msKey rn) m = [] := by
          rw [hmdef, hfm, if_pos hmem2]
        refine mem_chData.mpr ⟨w, ?_, ?_, hwt⟩
        · rcases List.mem_append.mp hwo2 with h | h
          · rcases List.mem_append.mp h with h' | h'
            · exact (hmemL w).mpr (Or.inl h')
            · exact (hmemL w).mpr (Or.inr (Or.inl h'))
          · exact (hmemL w).mpr (Or.inr (Or.inr (Or.inl h)))
        · rw [isLatest_iff]
          intro b hb hkb
          have hbk : msKey b = msKey rn := hkb.trans hwk
          rcases (hmemL b).mp hb with hbo | hba | hbd | hbm
          · exact (isLatest_iff.mp hwlat) b
              (List.mem_append.mpr (Or.inl (List.mem_append.mpr (Or.inl hbo)))) hkb
          · exact absurd (mem_rowsFor.mpr ⟨hba, hbk⟩) (by rw [hfa]; exact List.not_mem_nil _)
          · exact absurd (mem_rowsFor.mpr ⟨hbd, hbk⟩) (by rw [hfd]; exact List.not_mem_nil _)
          · exact absurd (mem_rowsFor.mpr ⟨hbm, hbk⟩) (by rw [hfm0]; exact List.not_mem_nil _)
      · have hfm1 : rowsFor (msKey rn) m = [rn] := by
          rw [hmdef, hfm, if_neg hmem2]
        have hrnmem : rn ∈ m := (mem_rowsFor.mp (hfm1 ▸ List.mem_singleton_self rn)).1
        refine mem_chData.mpr
          ⟨rn, (hmemL rn).mpr (Or.inr (Or.inr (Or.inr hrnmem))), ?_, rfl⟩
        rw [isLatest_iff]
        intro b hb hkb
        rcases (hmemL b).mp hb with hbo | hba | hbd | hbm
        · rw [hrvn]
          exact le_of_lt (hvo b hbo)
        · exact absurd (mem_rowsFor.mpr ⟨hba, hkb⟩) (by rw [hfa]; exact List.not_mem_nil _)
        · exact absurd (mem_rowsFor.mpr ⟨hbd, hkb⟩) (by rw [hfd]; exact List.not_mem_nil _)
        · have hbin : b ∈ rowsFor (msKey rn) m := mem_rowsFor.mpr ⟨hbm, hkb⟩
          rw [hfm1] at hbin
          rw [List.mem_singleton.mp hbin]
    · have hdiffa : msKey rn ∈ canonSetDiff (query_most_recent_msids_sets newT)
          (query_most_recent_msids_sets oldT) := mem_canonSetDiff.mpr ⟨hkn, hko⟩
      have hfa : rowsFor (msKey rn) a = [rn] := by
        rw [hadef, rowsFor_addedRows, if_pos hdiffa, hrq]
        rfl
      have hfo : rowsFor (msKey rn) oldT = [] :=
        rowsFor_eq_nil (fun b hb hkb => hko (mem_msids_sets.mpr ⟨b, hb, hkb⟩))
      have hrna : rn ∈ a := (mem_rowsFor.mp (hfa ▸ List.mem_singleton_self rn)).1
      refine mem_chData.mpr ⟨rn, (hmemL rn).mpr (Or.inr (Or.inl hrna)), ?_, rfl⟩
      rw [isLatest_iff]
      intro b hb hkb
      rcases (hmemL b).mp hb with hbo | hba | hbd | hbm
      · exact absurd (mem_rowsFor.mpr ⟨hbo, hkb⟩) (by rw [hfo]; exact List.not_mem_nil _)
      · have hbin : b ∈ rowsFor (msKey rn) a := mem_rowsFor.mpr ⟨hba, hkb⟩
        rw [hfa] at hbin
        rw [List.mem_singleton.mp hbin]
      · exact absurd (mem_rowsFor.mpr ⟨hbd, hkb⟩) (by rw [hfd]; exact List.not_mem_nil _)
      · have hqb := (modifiedRows_key hbm).2
        rw [hkb] at hqb
        rw [Option.some.inj (hqb.symm.trans hrq)]

/-- Counterexample to C5: merging the same revision twice into a fresh
store does not succeed.  The second `commit_new_version_row` inserts a
duplicate `(version, datesec, date)` into the `versions` table, whose
three `UNIQUE` constraints make the insert raise
(`sqlite3.IntegrityError`), so the second merge aborts before
`compute_fingerprints` instead of completing with identical
fingerprints. -/
theorem idempotent_remerge_counterexample :
    Except.bind (mergeStep revFoo store0) (fun s => mergeStep revFoo s)
      = Except.error MergeErr.versionUniqueViolation := by decide

/-- **C5 (amended).** Merging an identical revision a second time emits
empty added/deactivated/modified row sets for both tables — so the table
contents and their recorded hashes are unchanged — but the merge itself
does not succeed: the version-row insert hits the `versions` table's
`UNIQUE` constraints and the merge raises before recording a fingerprint
(hypotheses: a first merge succeeded, the revision's tables have one
unique latest row per key, all its rows carry the revision's version
stamp, and the prior store rows carry strictly older stamps). -/
theorem second_merge_same_revision
    (new : RevDB) (old : StoreDB) (db1 : StoreDB)
    (hok : mergeStep new old = .ok db1)
    (hNl : uniqLatest new.limits) (hNs : uniqLatest new.states)
    (hvl : ∀ r ∈ new.limits, r.modversion = new.version)
    (hvs : ∀ r ∈ new.states, r.modversion = new.version)
    (holdl : ∀ r ∈ old.limits, r.modversion < new.version)
    (holds : ∀ r ∈ old.states, r.modversion < new.version) :
    addedRows new.limits db1.limits = [] ∧
      deletedRows new.limits db1.limits new.version new.datesec new.date = [] ∧
      modifiedRows new.limits db1.limits = [] ∧
      addedRows new.states db1.states = [] ∧
      deletedRows new.states db1.states new.version new.datesec new.date = [] ∧
      modifiedRows new.states db1.states = [] ∧
      mergeStep new db1 = .error .versionUniqueViolation := by
  unfold mergeStep mergeStepW at hok
  rcases hins : insertVersion old.versions ⟨new.version, new.datesec, new.date⟩ with _ | vs
  · rw [hins] at hok
    exact absurd hok (by simp)
  · rw [hins] at hok
    have hdb1 := Except.ok.inj hok
    have hlim : db1.limits =
        mergeTableResultW canonChoice new.limits old.limits new.version new.datesec new.date := by
      rw [← hdb1]
      rfl
    have hsta : db1.states =
        mergeTableResultW canonChoice new.states old.states new.version new.datesec new.date := by
      rw [← hdb1]
      rfl
    have hver : db1.versions = old.versions ++
        [⟨new.version, new.datesec, new.date⟩] := by
      rw [← hdb1]
      have : vs = old.versions ++ [⟨new.version, new.datesec, new.date⟩] := by
        unfold insertVersion at hins
        by_cases hc : old.versions.any (fun w =>
            decide (w.version = VersionRow.version ⟨new.version, new.datesec, new.date⟩) ||
              decide (w.datesec = VersionRow.datesec ⟨new.version, new.datesec, new.date⟩) ||
                decide (w.date = VersionRow.date ⟨new.version, new.datesec, new.date⟩)) = true
        · rw [if_pos hc] at hins
          exact absurd hins (by simp)
        · rw [if_neg hc] at hins
          exact (Option.some.inj hins).symm
      rw [this]
      rfl
    obtain ⟨hal, hdl, hml⟩ :=
      second_pass_empty new.limits old.limits new.version new.datesec new.date hNl hvl holdl
    obtain ⟨has, hds, hms⟩ :=
      second_pass_empty new.states old.states new.version new.datesec new.date hNs hvs holds
    refine ⟨by rw [hlim]; exact hal, by rw [hlim]; exact hdl, by rw [hlim]; exact hml,
      by rw [hsta]; exact has, by rw [hsta]; exact hds, by rw [hsta]; exact hms, ?_⟩
    show mergeStepW canonChoice new db1 = .error .versionUniqueViolation
    unfold mergeStepW
    rw [hver, insertVersion_append_self]

/-- Witness for C5 (amended): concrete fresh store, one-entity revision;
the second merge's six pass outputs are empty and the merge fails on the
version-row insert. -/
theorem second_merge_same_revision_witness :
    addedRows revFoo.limits storeFoo1.limits = [] ∧
      deletedRows revFoo.limits storeFoo1.limits revFoo.version revFoo.datesec
        revFoo.date = [] ∧
      modifiedRows revFoo.limits storeFoo1.limits = [] ∧
      addedRows revFoo.states storeFoo1.states = [] ∧
      deletedRows revFoo.states storeFoo1.states revFoo.version revFoo.datesec
        revFoo.date = [] ∧
      modifiedRows revFoo.states storeFoo1.states = [] ∧
      mergeStep revFoo storeFoo1 = .error .versionUniqueViolation :=
  second_merge_same_revision revFoo store0 storeFoo1 (by decide)
    (by unfold uniqLatest; decide) (by unfold uniqLatest; decide)
    (by decide) (by decide) (by decide) (by decide)

/-! ### The comment split (C10) and parser skipping (C9) -/

theorem findIdxCh_eq_none_iff {c : Char} : ∀ {s : Str}, findIdxCh c s = none ↔ c ∉ s := by
  intro s
  induction s with
  | nil => simp [findIdxCh]
  | cons a t ih =>
      by_cases ha : a = c
      · simp [findIdxCh, ha]
      · simp only [findIdxCh, if_neg ha, List.mem_cons]
        constructor
        · intro h hc
          rcases hc with hc | hc
          · exact ha hc.symm
          · rcases hfi : findIdxCh c t with _ | i
            · exact (ih.mp hfi) hc
            · rw [hfi] at h
              exact absurd h (by simp)
        · intro h
          have : c ∉ t := fun hc => h (Or.inr hc)
          rw [ih.mpr this]
          rfl

theorem take_drop_findIdxCh :
    ∀ (s : Str) (i : Nat), findIdxCh '#' s = some i →
      s.take i = s.takeWhile (fun c => c ≠ '#') ∧
        s.drop i = s.dropWhile (fun c => c ≠ '#')
  | [], i, h => by simp [findIdxCh] at h
  | a :: t, i, h => by
      by_cases ha : a = '#'
      · subst ha
        simp only [findIdxCh, if_pos rfl] at h
        have : i = 0 := (Option.some.inj h).symm
        subst this
        constructor
        · simp [List.takeWhile]
        · simp [List.dropWhile]
      · simp only [findIdxCh, if_neg ha] at h
        rcases hfi : findIdxCh '#' t with _ | j
        · rw [hfi] at h
          exact absurd h (by simp)
        · rw [hfi] at h
          simp only [Option.map_some'] at h
          have hij : i = j + 1 := (Option.some.inj h).symm
          subst hij
          obtain ⟨h1, h2⟩ := take_drop_findIdxCh t j hfi
          have hpa : (fun c => decide (c ≠ '#')) a = true := by simp [ha]
          constructor
          · simp only [List.take_succ_cons, List.takeWhile_cons, hpa, if_true, h1]
          · simp only [List.drop_succ_cons, List.dropWhile_cons, hpa, if_true, h2]

/-- With no `#` in the line, `line[:line.find('#')]` is `line[:-1]`. -/
theorem codePart_not_mem_eq {line : Str} (h : '#' ∉ line) :
    codePart line = line.dropLast := by
  have hfi : findIdxCh '#' line = none := findIdxCh_eq_none_iff.mpr h
  simp only [codePart, pyFind, hfi, pySliceTo]
  rw [if_neg (by omega)]
  rw [List.dropLast_eq_take]
  rfl

/-- With a `#` in the line, `line[:line.find('#')]` is everything before
the first `#`. -/
theorem codePart_mem_eq {line : Str} (h : '#' ∈ line) :
    codePart line = line.takeWhile (fun c => c ≠ '#') := by
  rcases hfi : findIdxCh '#' line with _ | i
  · exact absurd (findIdxCh_eq_none_iff.mp hfi) (by simp [h])
  · simp only [codePart, pyFind, hfi, pySliceTo]
    rw [if_pos (by omega)]
    rw [show ((i : Int)).toNat = i from rfl]
    exact (take_drop_findIdxCh line i hfi).1

/-- With a `#` in the line, `line[line.find('#'):]` is the suffix from
the first `#`. -/
theorem commentPart_mem_eq {line : Str} (h : '#' ∈ line) :
    commentPart line = line.dropWhile (fun c => c ≠ '#') := by
  rcases hfi : findIdxCh '#' line with _ | i
  · exact absurd (findIdxCh_eq_none_iff.mp hfi) (by simp [h])
  · simp only [commentPart, pyFind, hfi, pySliceFrom]
    rw [if_pos (by omega)]
    rw [show ((i : Int)).toNat = i from rfl]
    exact (take_drop_findIdxCh line i hfi).2

/-- **C10.** The parser's comment split: a line with no `#` loses its
final character (`str.find` returns −1 and `line[:-1]` drops it) — so a
directive line lacking both a comment and a trailing newline is tokenized
with its last character removed — while a line containing `#` is split
exactly at the first `#`. -/
theorem comment_split_spec (line : Str) :
    ('#' ∉ line → codePart line = line.dropLast) ∧
      ('#' ∈ line →
        codePart line = line.takeWhile (fun c => c ≠ '#') ∧
          commentPart line = line.dropWhile (fun c => c ≠ '#')) :=
  ⟨fun h => codePart_not_mem_eq h,
    fun h => ⟨codePart_mem_eq h, commentPart_mem_eq h⟩⟩

/-- Witness for C10: a bare directive line without newline loses its last
character; a commented line splits at the `#`. -/
theorem comment_split_spec_witness :
    ('#' ∉ (['M', 'M', 'S', 'I', 'D'] : Str) ∧
        codePart ['M', 'M', 'S', 'I', 'D'] = ['M', 'M', 'S', 'I']) ∧
      ('#' ∈ (['a', 'b', '#', 'c'] : Str) ∧
        codePart ['a', 'b', '#', 'c'] = ['a', 'b'] ∧
          commentPart ['a', 'b', '#', 'c'] = ['#', 'c']) := by
  refine ⟨⟨by decide, ?_⟩, ⟨by decide, ?_⟩⟩
  · rw [(comment_split_spec ['M', 'M', 'S', 'I', 'D']).1 (by decide)]
    decide
  · obtain ⟨h1, h2⟩ := (comment_split_spec ['a', 'b', '#', 'c']).2 (by decide)
    rw [h1, h2]
    exact ⟨by decide, by decide⟩

theorem mem_of_mem_pyStrip {c : Char} {s : Str} (h : c ∈ pyStrip s) : c ∈ s := by
  unfold pyStrip at h
  rw [List.mem_reverse] at h
  have h2 := (List.dropWhile_sublist _).subset h
  rw [List.mem_reverse] at h2
  exact (List.dropWhile_sublist _).subset h2

theorem no_hash_codePart (line : Str) : '#' ∉ codePart line := by
  by_cases h : '#' ∈ line
  · rw [codePart_mem_eq h]
    intro hc
    have := List.mem_takeWhile_imp hc
    simp at this
  · rw [codePart_not_mem_eq h]
    intro hc
    exact h ((List.dropLast_sublist _).subset hc)

theorem findRevisionMatch_eq_none {s : Str} (h : '#' ∉ s) :
    findRevisionMatch s = none := by
  induction s with
  | nil => rfl
  | cons c t ih =>
      have hc : c ≠ '#' := fun hc => h (hc ▸ List.mem_cons_self c t)
      have ht : '#' ∉ t := fun hm => h (List.mem_cons_of_mem c hm)
      simp only [findRevisionMatch, if_neg hc]
      exact ih ht

/-- **C9 (amended).** A line whose first token is not one of the
recognized directives — including an `MLOAD` line whose word count is not
exactly 2 — is silently skipped: `processLine` returns the state
unchanged. (Lines whose first token *is* a directive but whose arguments
are malformed raise `IndexError`/`ValueError`/`NameError`/`KeyError`
instead of being skipped.) -/
theorem unrecognized_line_skipped (st : ParseState) (line : Str)
    (w0 : Str) (ws : List Str)
    (hw : pySplitWs (pyStrip (codePart line)) = w0 :: ws)
    (hm : w0 ∉ ([kwMMSID, kwMLIMIT, kwMLMTOL, kwMLIMSW, kwMLMENABLE,
      kwMLMDEFTOL, kwMLMTHROW] : List Str))
    (hl : ¬(w0 = kwMLOAD ∧ (w0 :: ws).length = 2)) :
    processLine st line = .ok st := by
  simp only [List.mem_cons, List.not_mem_nil, or_false, not_or] at hm
  obtain ⟨hA, hB, hC, hD, hE, hF, hG⟩ := hm
  have hRev : findRevisionMatch (pyStrip (codePart line)) = none :=
    findRevisionMatch_eq_none (fun hc => no_hash_codePart line (mem_of_mem_pyStrip hc))
  have hand : ¬((decide (w0 = kwMLOAD) && decide ((w0 :: ws).length = 2)) = true) := by
    simp only [Bool.and_eq_true, decide_eq_true_eq]
    exact fun h => hl h
  simp only [processLine, hw]
  rw [if_neg hand, if_neg hA, if_neg hB, if_neg hC, if_neg hD, if_neg hE,
    if_neg hF, if_neg hG, hRev]
  rfl

/-- Counterexample to C9 as stated: the malformed directive line
`"MMSID\n"` (a recognized directive with its argument missing) is not
silently skipped — `words[1]` raises `IndexError`, so `read_glimmon`
raises on it. -/
theorem malformed_directive_raises_counterexample :
    read_glimmon [['M', 'M', 'S', 'I', 'D', '\n']] = .error .indexError := by
  decide

/-- Witness for C9 (amended): the equation-style line `"foo 1\n"` is
skipped with the state unchanged. -/
theorem unrecognized_line_skipped_witness :
    pySplitWs (pyStrip (codePart ['f', 'o', 'o', ' ', '1', '\n'])) =
        [['f', 'o', 'o'], ['1']] ∧
      processLine ⟨emptyGlimmon, none⟩ ['f', 'o', 'o', ' ', '1', '\n'] =
        Except.ok ⟨emptyGlimmon, none⟩ :=
  ⟨by decide,
    unrecognized_line_skipped ⟨emptyGlimmon, none⟩ ['f', 'o', 'o', ' ', '1', '\n']
      ['f', 'o', 'o'] [['1']] (by decide) (by decide) (by decide)⟩

/-! ### Projector defaults and the disabled-entity guard (C6, C7) -/

theorem slookup_sset_self {β : Type} (k : Str) (v : β) (l : List (Str × β)) :
    slookup k (sset k v l) = some v := by
  induction l with
  | nil => simp [sset, slookup]
  | cons p t ih =>
      by_cases hp : p.1 = k
      · simp [sset, hp, slookup]
      · simp only [sset, if_neg hp]
        simp only [slookup] at ih ⊢
        rw [List.find?_cons_of_neg _ (by simp [hp])]
        exact ih

theorem mem_rowsForMsid_fields (m : Str) (e : GEntity) (ds : Int) (d : Str) (mv : Int)
    (r : Row) (h : r ∈ (rowsForMsid m e ds d mv).1 ∨ r ∈ (rowsForMsid m e ds d mv).2) :
    r.mlmenable = e.mlmenable.getD 1 ∧ r.mlmtol = e.mlmtol.getD 1 ∧
      e.mlmenable ≠ some 0 := by
  unfold rowsForMsid at h
  by_cases hen : e.mlmenable = some 0
  · rw [if_pos hen] at h
    rcases h with h | h <;> simp at h
  · rw [if_neg hen] at h
    rcases hty : e.type? with _ | ty
    · rw [hty] at h
      rcases h with h | h <;> simp at h
    · rw [hty] at h
      simp only [] at h
      by_cases h1 : strLower ty = tyLimit
      · rw [if_pos h1] at h
        rcases h with h | h
        · replace h : r ∈ e.setkeys.filterMap (fun sk =>
              (alookup sk e.sets).map (fun s => mkLimitRow m sk s e ds d mv)) := h
          rw [List.mem_filterMap] at h
          obtain ⟨sk, hsk, hmap⟩ := h
          rcases hs : alookup sk e.sets with _ | s
          · rw [hs] at hmap
            exact absurd hmap (by simp)
          · rw [hs] at hmap
            rw [Option.map_some'] at hmap
            obtain rfl := Option.some.inj hmap
            exact ⟨rfl, rfl, hen⟩
        · simp at h
      · rw [if_neg h1] at h
        by_cases h2 : strLower ty = tyExpectedState
        · rw [if_pos h2] at h
          rcases h with h | h
          · simp at h
          · replace h : r ∈ e.setkeys.filterMap (fun sk =>
                (alookup sk e.sets).map (fun s => mkStateRow m sk s e ds d mv)) := h
            rw [List.mem_filterMap] at h
            obtain ⟨sk, hsk, hmap⟩ := h
            rcases hs : alookup sk e.sets with _ | s
            · rw [hs] at hmap
              exact absurd hmap (by simp)
            · rw [hs] at hmap
              rw [Option.map_some'] at hmap
              obtain rfl := Option.some.inj hmap
              exact ⟨rfl, rfl, hen⟩
        · rw [if_neg h2] at h
          rcases h with h | h <;> simp at h

theorem popLoopAux_id {α : Type} {p : α → Bool} {l : List α}
    (hp : ∀ x ∈ l, p x = false) : ∀ (fuel i : Nat), popLoopAux p fuel l i = l := by
  intro fuel
  induction fuel with
  | zero => intro i; rfl
  | succ n ih =>
      intro i
      unfold popLoopAux
      split
      · next h =>
          have hmem : l.get ⟨i, h⟩ ∈ l := List.get_mem l i h
          rw [hp _ hmem, if_neg Bool.false_ne_true]
          exact ih (i + 1)
      · rfl

theorem discardDisabled_id {rows : List Row} (h : ∀ r ∈ rows, r.mlmenable ≠ 0) :
    discardDisabled rows = rows :=
  popLoopAux_id (fun r hr => decide_eq_false (h r hr)) _ _

theorem gen_row_data_enabled (msids : List Str) (g : Glimmon) (ds : Int) (d : Str)
    (mv : Int) :
    (∀ r ∈ (gen_row_data msids g ds d mv false).1, r.mlmenable ≠ 0) ∧
      ∀ r ∈ (gen_row_data msids g ds d mv false).2, r.mlmenable ≠ 0 := by
  constructor
  · intro r hr
    replace hr : r ∈ ((msids.map (fun m =>
        match slookup m g.entities with
        | some e => rowsForMsid m e ds d mv
        | none => (([] : List Row), ([] : List Row)))).map (fun p => p.1)).flatten := hr
    rw [List.mem_flatten] at hr
    obtain ⟨l, hl, hrl⟩ := hr
    rw [List.mem_map] at hl
    obtain ⟨pp, hpp, rfl⟩ := hl
    rw [List.mem_map] at hpp
    obtain ⟨m, hm, rfl⟩ := hpp
    rcases hsl : slookup m g.entities with _ | e
    · rw [hsl] at hrl
      simp at hrl
    · rw [hsl] at hrl
      obtain ⟨h1, -, h3⟩ := mem_rowsForMsid_fields m e ds d mv r (Or.inl hrl)
      rw [h1]
      rcases hv : e.mlmenable with _ | n
      · simp
      · rw [hv] at h3
        simpa using h3
  · intro r hr
    replace hr : r ∈ ((msids.map (fun m =>
        match slookup m g.entities with
        | some e => rowsForMsid m e ds d mv
        | none => (([] : List Row), ([] : List Row)))).map (fun p => p.2)).flatten := hr
    rw [List.mem_flatten] at hr
    obtain ⟨l, hl, hrl⟩ := hr
    rw [List.mem_map] at hl
    obtain ⟨pp, hpp, rfl⟩ := hl
    rw [List.mem_map] at hpp
    obtain ⟨m, hm, rfl⟩ := hpp
    rcases hsl : slookup m g.entities with _ | e
    · rw [hsl] at hrl
      simp at hrl
    · rw [hsl] at hrl
      obtain ⟨h1, -, h3⟩ := mem_rowsForMsid_fields m e ds d mv r (Or.inr hrl)
      rw [h1]
      rcases hv : e.mlmenable with _ | n
      · simp
      · rw [hv] at h3
        simpa using h3

theorem gen_row_data_flag (msids : List Str) (g : Glimmon) (ds : Int) (d : Str)
    (mv : Int) :
    gen_row_data msids g ds d mv true = gen_row_data msids g ds d mv false := by
  obtain ⟨h1, h2⟩ := gen_row_data_enabled msids g ds d mv
  have e1 : gen_row_data msids g ds d mv true =
      (discardDisabled (gen_row_data msids g ds d mv false).1,
        discardDisabled (gen_row_data msids g ds d mv false).2) := rfl
  rw [e1, discardDisabled_id h1, discardDisabled_id h2]

/-- **C7 (amended).** The `discard_disabled_sets` flag is vacuous:
entities declared disabled (`mlmenable = 0`) are excluded from the row
batches by the `('mlmenable', 0) not in mdata.items()` guard regardless
of the flag, so every emitted row has a nonzero `mlmenable` and the
flag's removal loops find nothing to remove — the output with the flag
set equals the output with the flag clear. -/
theorem discard_flag_vacuous (g : Glimmon) (ds : Int) :
    glimit_gen_row_data g ds true = glimit_gen_row_data g ds false ∧
      ∀ lims ess, glimit_gen_row_data g ds false = some (lims, ess) →
        (∀ r ∈ lims, r.mlmenable ≠ 0) ∧ ∀ r ∈ ess, r.mlmenable ≠ 0 := by
  constructor
  · unfold glimit_gen_row_data
    rcases g.revision with _ | rev
    · rfl
    simp only []
    rcases g.version with _ | v
    · rfl
    simp only []
    rcases g.mlmdeftol with _ | dt
    · rfl
    simp only []
    rcases g.mlmthrow with _ | mt
    · rfl
    simp only []
    rcases g.date with _ | d
    · rfl
    simp only []
    rcases formatDate d with _ | dateStr
    · rfl
    simp only []
    rcases pyInt (rev.drop 2) with _ | modv
    · rfl
    simp only []
    rw [gen_row_data_flag]
  · intro lims ess h
    unfold glimit_gen_row_data at h
    rcases hrev : g.revision with _ | rev
    · rw [hrev] at h
      exact Option.noConfusion h
    rw [hrev] at h
    simp only [] at h
    rcases hv : g.version with _ | v
    · rw [hv] at h
      exact Option.noConfusion h
    rw [hv] at h
    simp only [] at h
    rcases hdt : g.mlmdeftol with _ | dt
    · rw [hdt] at h
      exact Option.noConfusion h
    rw [hdt] at h
    simp only [] at h
    rcases hmt : g.mlmthrow with _ | mt
    · rw [hmt] at h
      exact Option.noConfusion h
    rw [hmt] at h
    simp only [] at h
    rcases hd : g.date with _ | d
    · rw [hd] at h
      exact Option.noConfusion h
    rw [hd] at h
    simp only [] at h
    rcases hfd : formatDate d with _ | dateStr
    · rw [hfd] at h
      exact Option.noConfusion h
    rw [hfd] at h
    simp only [] at h
    rcases hpi : pyInt (rev.drop 2) with _ | modv
    · rw [hpi] at h
      exact Option.noConfusion h
    rw [hpi] at h
    simp only [] at h
    have heq := Option.some.inj h
    obtain ⟨h1, h2⟩ := gen_row_data_enabled (filter_msids g) g ds dateStr modv
    rw [heq] at h1 h2
    exact ⟨h1, h2⟩

/-- Counterexample to C7 as stated: with the flag *clear*, the rows of
the explicitly disabled entity are still absent from the initial output
batch — the guard in the per-MSID loop skips disabled entities before
the flag is ever consulted. -/
theorem discard_disabled_counterexample :
    eDisabledX.mlmenable = some 0 ∧
      gDisabled.entities = [(sFooU, eDisabledX)] ∧
        glimit_gen_row_data gDisabled 0 false = some ([], []) := by
  decide

/-- Witness for C7 (amended): on a concrete parsed file the two flag
settings produce identical (nonempty) output. -/
theorem discard_flag_vacuous_witness :
    glimit_gen_row_data gNoTdb 0 true = glimit_gen_row_data gNoTdb 0 false ∧
      (glimit_gen_row_data gNoTdb 0 false).isSome = true :=
  ⟨(discard_flag_vacuous gNoTdb 0).1, by decide⟩

/-- **C6 (amended).** At the row projector, *both* `mlmenable` and
`mlmtol` default to 1 when the entity dict lacks them (`mdata.get(key,
1)`); the file-wide `MLMDEFTOL` tolerance reaches an entity only through
`fill_limits`, i.e. only when the entity is present in the reference
snapshot with limit data: there an undeclared `mlmtol` is filled with
the file-wide default (and an undeclared `mlmenable` with 1) before
projection.  An entity absent from the reference snapshot therefore gets
`mlmtol = 1`, not the `MLMDEFTOL` value. -/
theorem mlm_default_spec :
    (∀ (m : Str) (e : GEntity) (ds : Int) (d : Str) (mv : Int) (r : Row),
        (r ∈ (rowsForMsid m e ds d mv).1 ∨ r ∈ (rowsForMsid m e ds d mv).2) →
          r.mlmenable = e.mlmenable.getD 1 ∧ r.mlmtol = e.mlmtol.getD 1) ∧
      ∀ (te : TdbEntity) (g : Glimmon) (msid : Str) (g2 : Glimmon) (gE : GEntity)
          (dtol : Int),
        slookup (strUpper msid) g.entities = some gE →
          gE.mlmtol = none → gE.mlmenable = none → g.mlmdeftol = some dtol →
            fill_limits te g msid = some g2 →
              ∃ e2, slookup (strUpper msid) g2.entities = some e2 ∧
                e2.mlmtol = some dtol ∧ e2.mlmenable = some 1 := by
  constructor
  · intro m e ds d mv r h
    obtain ⟨h1, h2, -⟩ := mem_rowsForMsid_fields m e ds d mv r h
    exact ⟨h1, h2⟩
  · intro te g msid g2 gE dtol hgE htol hen hdef h
    unfold fill_limits at h
    rcases hL : te.limit with _ | L
    · rw [hL] at h
      exact Option.noConfusion h
    rw [hL] at h
    simp only [] at h
    rw [hgE] at h
    simp only [] at h
    rw [htol] at h
    simp only [] at h
    rw [hdef] at h
    simp only [] at h
    have heq := Option.some.inj h
    subst heq
    refine ⟨_, slookup_sset_self _ _ _, ?_, ?_⟩
    · simp only [entityUpdate]
      rw [htol]
      rfl
    · simp only [entityUpdate]
      rw [hen]
      rfl

/-- Counterexample to C6 as stated: a parsed file with `MLMDEFTOL 3`
whose only entity is absent from the reference snapshot and declares no
`MLMTOL` — the projected row carries `mlmtol = 1`, not the file-wide
default 3. -/
theorem mlm_default_counterexample :
    gNoTdb.mlmdeftol = some 3 ∧
      ((updateAll [] gNoTdb).bind (fun g2 => glimit_gen_row_data g2 0 true)).map
          (fun p => p.1.map (fun r => (r.mlmtol, r.mlmenable))) = some [(1, 1)] := by
  decide

/-- Witness for C6 (amended): with the entity present in the reference
snapshot, `fill_limits` fills the undeclared `mlmtol` with the file-wide
default 3 and the undeclared `mlmenable` with 1. -/
theorem mlm_default_spec_witness :
    gNoTdb.mlmdeftol = some 3 ∧
      ∃ g2, fill_limits teFoo gNoTdb sFoo = some g2 ∧
        ∃ e2, slookup (strUpper sFoo) g2.entities = some e2 ∧
          e2.mlmtol = some 3 ∧ e2.mlmenable = some 1 := by
  refine ⟨by decide, ?_⟩
  rcases hf : fill_limits teFoo gNoTdb sFoo with _ | g2
  · exact absurd hf (by decide)
  · exact ⟨g2, rfl,
      mlm_default_spec.2 teFoo gNoTdb sFoo g2 ePlain 3 (by decide) (by decide)
        (by decide) (by decide) hf⟩
